import Mathlib

/-!
# Verification of the webrtcperf VMAF module (IVF parse / repair / aggregation)

A shallow embedding of the core of `vmaf.ts`: the IVF container reader
(`parseIvf`), the timestamp-reconciliation pass, the catalogue re-keying,
the frame-repair writer (`fixIvfFrames`) and the per-frame metric bucketing
fold of `writeGraph`.

Files are modelled as lists of bytes (`List Nat`, each entry a byte value);
`DataView` reads pad missing bytes with zero exactly as Node's `fd.read`
leaves fresh `ArrayBuffer` bytes at zero.  JS `Map`s are modelled as
insertion-ordered association lists with unique keys (`mapGet`, `mapSet`,
`mapHas`, `mapDelete` mirroring `get`/`set`/`has`/`delete`).  Loops whose
JS termination is by file position are given an explicit fuel argument,
always called with enough fuel (the file length bounds the iteration
count).
-/

namespace Webrtcperf

/-! ## Byte-level primitives (DataView little-endian accessors) -/

/-- Read one byte of a buffer; absent positions read as `0` (a fresh
`ArrayBuffer` is zero-filled and a short `fd.read` leaves the tail at zero). -/
def getByte (bs : List Nat) (i : Nat) : Nat := bs.getD i 0

/-- `DataView.getUint16(off, true)`. -/
def getU16le (bs : List Nat) (off : Nat) : Nat :=
  getByte bs off + 256 * getByte bs (off + 1)

/-- `DataView.getUint32(off, true)`. -/
def getU32le (bs : List Nat) (off : Nat) : Nat :=
  getByte bs off + 256 * getByte bs (off + 1) + 65536 * getByte bs (off + 2) +
    16777216 * getByte bs (off + 3)

/-- `DataView.getBigUint64(off, true)` (as a natural number). -/
def getU64le (bs : List Nat) (off : Nat) : Nat :=
  getByte bs off + 256 * getByte bs (off + 1) + 65536 * getByte bs (off + 2) +
    16777216 * getByte bs (off + 3) + 4294967296 * getByte bs (off + 4) +
    1099511627776 * getByte bs (off + 5) + 281474976710656 * getByte bs (off + 6) +
    72057594037927936 * getByte bs (off + 7)

/-- The four little-endian bytes stored by `DataView.setUint32`. -/
def u32le (v : Nat) : List Nat :=
  [v % 256, v / 256 % 256, v / 65536 % 256, v / 16777216 % 256]

/-- The eight little-endian bytes stored by `DataView.setBigUint64`. -/
def u64le (v : Nat) : List Nat :=
  [v % 256, v / 256 % 256, v / 65536 % 256, v / 16777216 % 256,
   v / 4294967296 % 256, v / 1099511627776 % 256, v / 281474976710656 % 256,
   v / 72057594037927936 % 256]

/-- `fd.read(view, 0, len, pos)` into a fresh zero-filled buffer of size
`len`: bytes past the end of the file stay `0`. -/
def readBuf (file : List Nat) (pos len : Nat) : List Nat :=
  (List.range len).map fun i => getByte file (pos + i)

/-- Overwrite the bytes of `bs` at offsets `off, …, off + nb.length - 1`
with `nb` (a `DataView` `set…` call; callers keep `off + nb.length` within
the buffer). -/
def setBytesAt (bs : List Nat) (off : Nat) (nb : List Nat) : List Nat :=
  bs.take off ++ nb ++ bs.drop (off + nb.length)

/-! ## The JS `Map` model: insertion-ordered association lists -/

/-- `Map.get`. -/
def mapGet {α : Type} : List (Nat × α) → Nat → Option α
  | [], _ => none
  | (k', v) :: rest, k => if k' = k then some v else mapGet rest k

/-- `Map.has`. -/
def mapHas {α : Type} : List (Nat × α) → Nat → Bool
  | [], _ => false
  | (k', _) :: rest, k => if k' = k then true else mapHas rest k

/-- `Map.set`: update an existing key in place, else append. -/
def mapSet {α : Type} : List (Nat × α) → Nat → α → List (Nat × α)
  | [], k, v => [(k, v)]
  | (k', v') :: rest, k, v =>
      if k' = k then (k, v) :: rest else (k', v') :: mapSet rest k v

/-- `Map.delete`. -/
def mapDelete {α : Type} : List (Nat × α) → Nat → List (Nat × α)
  | [], _ => []
  | (k', v') :: rest, k => if k' = k then rest else (k', v') :: mapDelete rest k

/-- `Array.from(m.keys())`. -/
def mapKeys {α : Type} (m : List (Nat × α)) : List Nat := m.map Prod.fst

/-- `Array.from(m.keys()).sort((a, b) => a - b)`. -/
def sortKeys {α : Type} (m : List (Nat × α)) : List Nat :=
  List.insertionSort (· ≤ ·) (mapKeys m)

/-- JS truthiness of `Map.get`'s result on numbers: `undefined` and `0` are
falsy. -/
def jsTruthy : Option Nat → Bool
  | none => false
  | some 0 => false
  | some (_ + 1) => true

/-! ## The IVF data model (`IvfFrame`, `IvfInfo`) -/

/-- One catalogued frame: `{ index, position, size }`, where `size` includes
the 12 frame-header bytes (`size: size + 12` at the insertion site). -/
structure IvfFrame where
  index : Nat
  position : Nat
  size : Nat
deriving DecidableEq, Repr

/-- The result of `parseIvf` (the `frameRate = den / num` float is kept as
the raw header fields `den` and `num`). -/
structure IvfInfo where
  width : Nat
  height : Nat
  den : Nat
  num : Nat
  frames : List (Nat × IvfFrame)
  ptsIndex : List Nat
deriving DecidableEq, Repr

/-! ## The container reader (`parseIvf`, frame-scan loop) -/

/-- The frame-scan `do … while` of `parseIvf`: read a 12-byte frame header
at `position` (4-byte size, 8-byte pts); stop on a short read
(`bytesRead !== 12`, i.e. fewer than 12 bytes left); skip a pts already
catalogued, else insert `{index, position, size: size + 12}`; advance by
`size + 12`.  `fuel` only bounds the iteration count; every call supplies
at least `file.length` which is more than the number of frames read. -/
def parseLoop (file : List Nat) : Nat → Nat → Nat → List (Nat × IvfFrame) →
    List (Nat × IvfFrame)
  | 0, _, _, frames => frames
  | fuel + 1, position, index, frames =>
    if file.length < position + 12 then frames
    else
      let size := getU32le file position
      let pts := getU64le file (position + 4)
      if mapHas frames pts then
        parseLoop file fuel (position + size + 12) index frames
      else
        parseLoop file fuel (position + size + 12) (index + 1)
          (frames ++ [(pts, ⟨index, position, size + 12⟩)])

/-- `parseIvf(fpath, false)`: fail (`Invalid IVF file`) unless the 32-byte
header is fully read; extract width/height and the two rate fields; scan
the frames; return the catalogue and its sorted key index. -/
def parseIvfPlain (file : List Nat) : Option IvfInfo :=
  if file.length < 32 then none
  else
    let frames := parseLoop file file.length 32 0 []
    some ⟨getU16le file 12, getU16le file 14, getU32le file 16, getU32le file 20,
      frames, sortKeys frames⟩

/-! ## The reconciliation pass and the catalogue re-keying -/

/-- One step of the reconciliation `for (const [i, pts] of ptsIndex.entries())`
loop, iterated over the `entries()` pairs: if the recognized value at `pts`
is falsy and `i ≠ 0`, look up the *current* value of the previous key
`ptsIdx[i-1]`; substitute `prev + pts - ptsIdx[i-1]` when that is truthy,
else delete `pts`. -/
def reconcileGo (ptsIdx : List Nat) :
    List (Nat × Nat) → List (Nat × Nat) → List (Nat × Nat)
  | [], m => m
  | (i, pts) :: rest, m =>
      let recognizedPts := mapGet m pts
      let m' :=
        if jsTruthy recognizedPts || i == 0 then m
        else
          match mapGet m (ptsIdx.getD (i - 1) 0) with
          | some p =>
              if p ≠ 0 then mapSet m pts (p + pts - ptsIdx.getD (i - 1) 0)
              else mapDelete m pts
          | none => mapDelete m pts
      reconcileGo ptsIdx rest m'

/-- The whole reconciliation pass over `ptsToRecognized` (lines sorting the
keys ascending and walking them with the loop above). -/
def reconcile (m : List (Nat × Nat)) : List (Nat × Nat) :=
  reconcileGo (sortKeys m) (sortKeys m).enum m

/-- Re-keying loop (`for (const [pts, frame] of frames)`): keep a frame
under its recognized pts when that value is truthy, dropping sentinel `0`
and deleted keys; `Map.set` overwrites an existing recognized key. -/
def rekeyGo (rec : List (Nat × Nat)) :
    List (Nat × IvfFrame) → List (Nat × IvfFrame) → List (Nat × IvfFrame)
  | [], acc => acc
  | (pts, frame) :: rest, acc =>
      match mapGet rec pts with
      | some r =>
          if r ≠ 0 then rekeyGo rec rest (mapSet acc r frame)
          else rekeyGo rec rest acc
      | none => rekeyGo rec rest acc

/-- `recognizedFrames` built from the original catalogue and the reconciled
recognition map; the original map is then replaced wholesale. -/
def rekeyFrames (frames : List (Nat × IvfFrame)) (rec : List (Nat × Nat)) :
    List (Nat × IvfFrame) :=
  rekeyGo rec frames []

/-- `parseIvf(fpath, true)`: the recognizer itself is an external OCR
capability, so its outcome is a parameter — `ocr` is the
`ptsToRecognized` map as it stands after the recognition phase (sentinel
`0` for low-confidence or unparsable frames).  The in-model part is the
reconciliation pass, the catalogue re-keying and the re-derived sorted
index. -/
def parseIvfRecognized (file : List Nat) (ocr : List (Nat × Nat)) : Option IvfInfo :=
  if file.length < 32 then none
  else
    let frames := parseLoop file file.length 32 0 []
    let rec' := reconcile ocr
    let frames' := rekeyFrames frames rec'
    some ⟨getU16le file 12, getU16le file 14, getU32le file 16, getU32le file 20,
      frames', sortKeys frames'⟩

/-! ## The frame-repair writer (`fixIvfFrames`) -/

/-- The mutable locals of the `for (const pts of ptsIndex)` walk, plus the
sequence of frames written so far (`out`, each tagged `true` when it was a
gap-filling duplicate — the writes the `duplicatedFrames` counter counts). -/
structure FixState where
  previousPts : Int
  previousFrame : Option (List Nat)
  startPts : Int
  writtenFrames : Nat
  duplicatedFrames : Nat
  out : List (Bool × List Nat)
deriving DecidableEq, Repr

/-- The gap-filling `while (pts - previousPts - 1 > 0)` loop: repeatedly
increment `previousPts`, patch the previous frame's embedded 8-byte pts
field in place, and write the patched buffer.  Returns the writes in
order, the final `previousPts` and the final buffer contents.  `fuel`
bounds the iteration count; the caller supplies `pts - previousPts`
iterations' worth. -/
def dupLoop : Nat → List Nat → Int → Nat → List (List Nat) × Int × List Nat
  | 0, pf, p, _ => ([], p, pf)
  | fuel + 1, pf, p, pts =>
      if (pts : Int) - p - 1 > 0 then
        let p' := p + 1
        let pf' := setBytesAt pf 4 (u64le p'.toNat)
        let r := dupLoop fuel pf' p' pts
        (pf' :: r.1, r.2)
      else ([], p, pf)

/-- What `fixIvfFrames` keeps or derives from one run: the bytes of the
output file (32-byte header with the frame-count field at offset 24
rewritten, then the frames in write order), the written frames themselves,
and the counters. -/
structure FixOutput where
  outBytes : List Nat
  outFrames : List (Bool × List Nat)
  writtenFrames : Nat
  duplicatedFrames : Nat
  startPts : Int
deriving DecidableEq, Repr

/-- One iteration of the writer's walk at timestamp `pts`: skip a pts
missing from the catalogue; on a positive gap after a written frame, fail
when `missing > frameRate * 60 * 60`, else duplicate the previous frame
across the gap; then read the current frame's bytes from the source file,
patch its embedded pts field to `pts`, and write it. -/
def fixStep (file : List Nat) (frames : List (Nat × IvfFrame)) (frameRate : Nat)
    (st : FixState) (pts : Nat) : Except String FixState :=
  match mapGet frames pts with
  | none => .ok st
  | some frame =>
    let afterGap : Except String FixState :=
      match st.previousFrame with
      | some pf =>
          if st.previousPts ≥ 0 ∧ (pts : Int) - 1 - st.previousPts > 0 then
            if (pts : Int) - 1 - st.previousPts > (frameRate : Int) * 60 * 60 then
              .error "too many frames missing"
            else
              let r := dupLoop ((pts : Int) - st.previousPts).toNat pf st.previousPts pts
              .ok { st with
                previousPts := r.2.1
                previousFrame := some r.2.2
                writtenFrames := st.writtenFrames + r.1.length
                duplicatedFrames := st.duplicatedFrames + r.1.length
                out := st.out ++ r.1.map fun b => (true, b) }
          else .ok st
      | none => .ok st
    afterGap.bind fun st1 =>
      let fv := setBytesAt (readBuf file frame.position frame.size) 4 (u64le pts)
      .ok { previousPts := (pts : Int)
            previousFrame := some fv
            startPts := if st1.startPts < 0 then (pts : Int) else st1.startPts
            writtenFrames := st1.writtenFrames + 1
            duplicatedFrames := st1.duplicatedFrames
            out := st1.out ++ [(false, fv)] }

/-- The writer's walk over the recovered `ptsIndex`. -/
def fixLoop (file : List Nat) (frames : List (Nat × IvfFrame)) (frameRate : Nat) :
    List Nat → FixState → Except String FixState
  | [], st => .ok st
  | pts :: rest, st => (fixStep file frames frameRate st pts).bind (fixLoop file frames frameRate rest)

/-- The core of `fixIvfFrames`, parametrised over the recovered catalogue
and index (`parseIvf(fpath, true)`'s output) and the stream's frame rate:
walk `ptsIndex`, then rewrite the header's frame-count field (offset 24)
with the written-frame total.  The output file is the 32 header bytes
followed by the frames in write order. -/
def fixIvfFrames (file : List Nat) (frames : List (Nat × IvfFrame))
    (ptsIndex : List Nat) (frameRate : Nat) : Except String FixOutput :=
  (fixLoop file frames frameRate ptsIndex
      ⟨-1, none, -1, 0, 0, []⟩).map fun st =>
    { outBytes := setBytesAt (readBuf file 0 32) 24 (u32le st.writtenFrames) ++
        (st.out.map Prod.snd).flatten
      outFrames := st.out
      writtenFrames := st.writtenFrames
      duplicatedFrames := st.duplicatedFrames
      startPts := st.startPts }

/-! ## The metrics-aggregation fold (`writeGraph`) -/

/-- One per-frame entry of the VMAF log (`frameNum`, `metrics.vmaf`); the
metric value is modelled exactly in `ℚ`. -/
structure VmafFrame where
  frameNum : Nat
  vmaf : ℚ
deriving DecidableEq, Repr

/-- `prev[prev.length - 1].y += d` on a non-empty array. -/
def updateLast {α : Type} : List α → (α → α) → List α
  | [], _ => []
  | [a], f => [f a]
  | a :: b :: rest, f => a :: updateLast (b :: rest) f

/-- One step of the `vmafLog.frames.reduce` bucketing fold of `writeGraph`:
open a new point `{x: frameNum, y: vmaf / frameRate}` when
`frameNum % frameRate === 0`, else add `vmaf / frameRate` into the last
point.  `none` models the `TypeError` thrown when the else-branch runs on
an empty accumulator (`prev[-1].y`). -/
def bucketStep (frameRate : Nat) (prev : Option (List (Nat × ℚ))) (cur : VmafFrame) :
    Option (List (Nat × ℚ)) :=
  match prev with
  | none => none
  | some acc =>
      if cur.frameNum % frameRate = 0 then
        some (acc ++ [(cur.frameNum, cur.vmaf / (frameRate : ℚ))])
      else
        match acc with
        | [] => none
        | _ :: _ => some (updateLast acc fun xy => (xy.1, xy.2 + cur.vmaf / (frameRate : ℚ)))

/-- The whole bucketing fold (`reduce` with initial accumulator `[]`). -/
def writeGraphData (frameRate : Nat) (frames : List VmafFrame) :
    Option (List (Nat × ℚ)) :=
  frames.foldl (bucketStep frameRate) (some [])

/-- Splitting a list into consecutive windows of `fr` elements (the last
window may be shorter).  Used to state what the bucketing fold computes. -/
def chunksOf {α : Type} (fr : Nat) : List α → List (List α)
  | [] => []
  | x :: xs => (x :: xs.take (fr - 1)) :: chunksOf fr (xs.drop (fr - 1))
termination_by l => l.length
decreasing_by simp [List.length_drop]; omega

/-! ## Spec-side reconciliation (the words of §4.2's reconciliation pass) -/

/-- The reconciliation pass exactly as the specification words it, carrying
the previous key and the previous entry's *resolved* value (`none` when
the previous entry was dropped): a sentinel entry that is not the first
element gets `previous resolved value + (this key − previous key)` when
that value is usable, and is dropped otherwise. -/
def reconcileSpecAux (prevKey : Nat) (prevVal : Option Nat) :
    List (Nat × Nat) → List (Nat × Nat)
  | [] => []
  | (k, v) :: rest =>
      if v ≠ 0 then (k, v) :: reconcileSpecAux k (some v) rest
      else
        match prevVal with
        | some p =>
            if p ≠ 0 then (k, p + k - prevKey) :: reconcileSpecAux k (some (p + k - prevKey)) rest
            else reconcileSpecAux k none rest
        | none => reconcileSpecAux k none rest

/-- Top level of the spec-side reconciliation: the first element is never
substituted. -/
def reconcileSpec : List (Nat × Nat) → List (Nat × Nat)
  | [] => []
  | (k, v) :: rest => (k, v) :: reconcileSpecAux k (some v) rest

/-! ## Derived notions used by the claims -/

/-- The embedded presentation timestamp of a written frame. -/
def ptsOf (wb : Bool × List Nat) : Nat := getU64le wb.2 4

/-- Frame records that correctly describe the source file: the length
covers the 12 header bytes and the stored 4-byte size field matches
(`size` was stored as the field value plus 12).  True of every catalogue
`parseIvf` builds. -/
def FramesOk (file : List Nat) (frames : List (Nat × IvfFrame)) : Prop :=
  ∀ kv ∈ frames, 12 ≤ kv.2.size ∧
    getU32le (readBuf file kv.2.position kv.2.size) 0 = kv.2.size - 12

instance (file : List Nat) (frames : List (Nat × IvfFrame)) :
    Decidable (FramesOk file frames) := by
  unfold FramesOk
  infer_instance

/-- The duplicate-write relation between adjacent written frames: a
gap-filling duplicate is its predecessor's bytes with only the embedded
8-byte timestamp field (offsets 4–11) patched, to the predecessor's
timestamp plus one. -/
def dupRel (x y : Bool × List Nat) : Prop :=
  y.1 = true → y.2 = setBytesAt x.2 4 (u64le (ptsOf x + 1))

/-- The writer-walk invariant: counters match the writes; every written
frame is at least 12 bytes and has a consistent size field; adjacent
writes satisfy the duplicate relation; `previousFrame` holds the last
written bytes; and the written timestamps form the contiguous block
`startPts, startPts + 1, …` bounded by `N`. -/
def FixInv (N : Nat) (st : FixState) : Prop :=
  st.writtenFrames = st.out.length ∧
  (∀ b ∈ st.out, 12 ≤ b.2.length ∧ getU32le b.2 0 = b.2.length - 12) ∧
  List.Chain' dupRel st.out ∧
  st.previousFrame = st.out.getLast?.map Prod.snd ∧
  ((st.out = [] ∧ st.previousPts = -1 ∧ st.startPts = -1) ∨
   (∃ a : Nat, st.startPts = (a : Int) ∧ 1 ≤ st.out.length ∧
     st.out.map ptsOf = List.range' a st.out.length ∧
     st.previousPts = (a : Int) + st.out.length - 1 ∧
     a + st.out.length ≤ N))

/-! ## Basic lemmas about the primitives -/

theorem getByte_append_right (pre bs : List Nat) (i : Nat) :
    getByte (pre ++ bs) (pre.length + i) = getByte bs i := by
  induction pre with
  | nil => simp [getByte]
  | cons a l ih =>
      simpa [getByte, List.length_cons, Nat.succ_add, List.getD] using ih

theorem getByte_append_left (pre bs : List Nat) (i : Nat) (h : i < pre.length) :
    getByte (pre ++ bs) i = getByte pre i := by
  induction pre generalizing i with
  | nil => simp at h
  | cons a l ih =>
      cases i with
      | zero => simp [getByte]
      | succ j =>
          have hj : j < l.length := by simpa using h
          simpa [getByte, List.getD] using ih j hj

theorem mapGet_eq_some_mem {α : Type} (m : List (Nat × α)) (k : Nat) (v : α)
    (h : mapGet m k = some v) : (k, v) ∈ m := by
  induction m with
  | nil => simp [mapGet] at h
  | cons p rest ih =>
      rcases p with ⟨k', v'⟩
      by_cases hk : k' = k
      · subst hk
        simp [mapGet] at h
        simp [h]
      · simp [mapGet, hk] at h
        exact List.mem_cons_of_mem _ (ih h)

theorem mapGet_cons_self {α : Type} (k : Nat) (v : α) (rest : List (Nat × α)) :
    mapGet ((k, v) :: rest) k = some v := by
  simp [mapGet]

theorem mapGet_append_notin {α : Type} (pre rest : List (Nat × α)) (k : Nat)
    (h : k ∉ pre.map Prod.fst) : mapGet (pre ++ rest) k = mapGet rest k := by
  induction pre with
  | nil => simp
  | cons p l ih =>
      rcases p with ⟨k', v'⟩
      have hk : k' ≠ k := by
        intro hc
        exact h (by simp [hc])
      have h' : k ∉ l.map Prod.fst := by
        intro hc
        exact h (by simp [hc])
      simp [mapGet, hk, ih h']

theorem mapGet_eq_none_of_notin {α : Type} (m : List (Nat × α)) (k : Nat)
    (h : k ∉ m.map Prod.fst) : mapGet m k = none := by
  induction m with
  | nil => rfl
  | cons p rest ih =>
      rcases p with ⟨k', v'⟩
      have hk : k' ≠ k := by
        intro hc
        exact h (by simp [hc])
      have h' : k ∉ rest.map Prod.fst := by
        intro hc
        exact h (by simp [hc])
      simp [mapGet, hk, ih h']

theorem mapSet_append_notin {α : Type} (pre rest : List (Nat × α)) (k : Nat) (v : α)
    (h : k ∉ pre.map Prod.fst) :
    mapSet (pre ++ rest) k v = pre ++ mapSet rest k v := by
  induction pre with
  | nil => simp
  | cons p l ih =>
      rcases p with ⟨k', v'⟩
      have hk : k' ≠ k := by
        intro hc
        exact h (by simp [hc])
      have h' : k ∉ l.map Prod.fst := by
        intro hc
        exact h (by simp [hc])
      simp [mapSet, hk, ih h']

theorem mapDelete_append_notin {α : Type} (pre rest : List (Nat × α)) (k : Nat)
    (h : k ∉ pre.map Prod.fst) :
    mapDelete (pre ++ rest) k = pre ++ mapDelete rest k := by
  induction pre with
  | nil => simp
  | cons p l ih =>
      rcases p with ⟨k', v'⟩
      have hk : k' ≠ k := by
        intro hc
        exact h (by simp [hc])
      have h' : k ∉ l.map Prod.fst := by
        intro hc
        exact h (by simp [hc])
      simp [mapDelete, hk, ih h']

theorem mapGet_mapSet_self {α : Type} (m : List (Nat × α)) (k : Nat) (v : α) :
    mapGet (mapSet m k v) k = some v := by
  induction m with
  | nil => simp [mapSet, mapGet]
  | cons p rest ih =>
      rcases p with ⟨k', v'⟩
      by_cases hk : k' = k
      · subst hk
        simp [mapSet, mapGet]
      · simp [mapSet, mapGet, hk, ih]


/-! ## Concrete example inputs for the writer -/

/-- A tiny two-frame source file (frames at pts 0 and 2, empty payloads),
exercising the writer across a one-frame gap. -/
def exGapFile : List Nat :=
  List.replicate 32 0 ++ u32le 0 ++ u64le 0 ++ u32le 0 ++ u64le 2

/-- The catalogue the reader builds for `exGapFile`. -/
def exGapFrames : List (Nat × IvfFrame) := [(0, ⟨0, 32, 12⟩), (2, ⟨1, 44, 12⟩)]

/-- The writer's output on `exGapFile`: three frames written, one a
duplicate of the first with its timestamp patched to 1. -/
def exGapOut : FixOutput :=
  ⟨List.replicate 24 0 ++ [3, 0, 0, 0] ++ List.replicate 4 0 ++
      ([0, 0, 0, 0, 0, 0, 0, 0, 0, 0, 0, 0] ++ [0, 0, 0, 0, 1, 0, 0, 0, 0, 0, 0, 0] ++
        [0, 0, 0, 0, 2, 0, 0, 0, 0, 0, 0, 0]),
    [(false, [0, 0, 0, 0, 0, 0, 0, 0, 0, 0, 0, 0]),
      (true, [0, 0, 0, 0, 1, 0, 0, 0, 0, 0, 0, 0]),
      (false, [0, 0, 0, 0, 2, 0, 0, 0, 0, 0, 0, 0])], 3, 1, 0⟩

/-! ## Lemmas about the bucketing fold -/

theorem updateLast_length {α : Type} (l : List α) (f : α → α) :
    (updateLast l f).length = l.length := by
  induction l with
  | nil => rfl
  | cons a t ih =>
      cases t with
      | nil => rfl
      | cons b r => simpa [updateLast] using ih

theorem updateLast_concat {α : Type} (l : List α) (x : α) (f : α → α) :
    updateLast (l ++ [x]) f = l ++ [f x] := by
  induction l with
  | nil => rfl
  | cons a t ih =>
      have h : (a :: t) ++ [x] = a :: (t ++ [x]) := rfl
      rw [h]
      cases ht : t ++ [x] with
      | nil => exact absurd ht (by simp)
      | cons b r =>
          rw [updateLast, ← ht, ih]
          rfl

theorem bucketFold_none (fr : Nat) (fs : List VmafFrame) :
    fs.foldl (bucketStep fr) none = none := by
  induction fs with
  | nil => rfl
  | cons f rest ih => simpa [bucketStep] using ih

theorem bucketFold_ne_nil (fr : Nat) (fs : List VmafFrame) :
    ∀ acc : List (Nat × ℚ), acc ≠ [] →
    ∃ bs, fs.foldl (bucketStep fr) (some acc) = some bs ∧ bs ≠ [] := by
  induction fs with
  | nil => exact fun acc h => ⟨acc, rfl, h⟩
  | cons f rest ih =>
      intro acc h
      by_cases hf : f.frameNum % fr = 0
      · have : acc ++ [(f.frameNum, f.vmaf / (fr : ℚ))] ≠ [] := by simp
        simpa [bucketStep, hf] using ih _ this
      · rcases acc with _ | ⟨p, t⟩
        · exact absurd rfl h
        · have hne : updateLast (p :: t) (fun xy => (xy.1, xy.2 + f.vmaf / (fr : ℚ))) ≠ [] := by
            intro hc
            have := updateLast_length (p :: t) (fun xy => (xy.1, xy.2 + f.vmaf / (fr : ℚ)))
            rw [hc] at this
            simp at this
          simpa [bucketStep, hf] using ih _ hne

/-- Claim C10: the bucketing fold opens a bucket only at frame numbers that
are exact multiples of `frameRate`; on a non-empty series it is total
exactly when the first frame number is such a multiple (otherwise the
first step dereferences the last element of an empty accumulator). -/
theorem claim_C10_bucket_fold_totality (fr : Nat) (_hfr : 0 < fr)
    (f : VmafFrame) (rest : List VmafFrame) :
    (writeGraphData fr (f :: rest)).isSome ↔ f.frameNum % fr = 0 := by
  constructor
  · intro h
    by_contra hf
    have : writeGraphData fr (f :: rest) = none := by
      unfold writeGraphData
      have h1 : bucketStep fr (some []) f = none := by
        simp [bucketStep, hf]
      rw [List.foldl_cons, h1, bucketFold_none]
    rw [this] at h
    simp at h
  · intro hf
    have h1 : bucketStep fr (some []) f = some [(f.frameNum, f.vmaf / (fr : ℚ))] := by
      simp [bucketStep, hf]
    obtain ⟨bs, hbs, _⟩ := bucketFold_ne_nil fr rest [(f.frameNum, f.vmaf / (fr : ℚ))] (by simp)
    unfold writeGraphData
    rw [List.foldl_cons, h1, hbs]
    rfl

/-- Witness for C10 at a concrete series. -/
theorem claim_C10_bucket_fold_totality_witness :
    0 < 2 ∧
      ((writeGraphData 2 [⟨2, 5⟩, ⟨3, 7⟩]).isSome ↔ (2 : Nat) % 2 = 0) :=
  ⟨by decide, claim_C10_bucket_fold_totality 2 (by decide) ⟨2, 5⟩ [⟨3, 7⟩]⟩

theorem range'_take (s n m : Nat) :
    (List.range' s n).take m = List.range' s (min m n) := by
  induction n generalizing s m with
  | zero => simp
  | succ k ih =>
      cases m with
      | zero => simp
      | succ j =>
          rw [List.range'_succ, List.take_succ_cons, ih]
          have h1 : min (j + 1) (k + 1) = min j k + 1 := by omega
          rw [h1, List.range'_succ]

theorem range'_drop (s n m : Nat) :
    (List.range' s n).drop m = List.range' (s + m) (n - m) := by
  induction n generalizing s m with
  | zero => simp
  | succ k ih =>
      cases m with
      | zero => simp
      | succ j =>
          rw [List.range'_succ, List.drop_succ_cons, ih]
          have h1 : s + 1 + j = s + (j + 1) := by omega
          have h2 : k - j = k + 1 - (j + 1) := by omega
          rw [h1, h2]

theorem bucketFold_within (fr : Nat) (w : List VmafFrame) :
    ∀ (acc : List (Nat × ℚ)) (x : Nat) (y : ℚ),
    (∀ f ∈ w, ¬ f.frameNum % fr = 0) →
    w.foldl (bucketStep fr) (some (acc ++ [(x, y)])) =
      some (acc ++ [(x, y + (w.map VmafFrame.vmaf).sum / (fr : ℚ))]) := by
  induction w with
  | nil => intro acc x y _; simp
  | cons f rest ih =>
      intro acc x y hw
      have hf : ¬ f.frameNum % fr = 0 := hw f (by simp)
      have hstep : bucketStep fr (some (acc ++ [(x, y)])) f =
          some (acc ++ [(x, y + f.vmaf / (fr : ℚ))]) := by
        have hne : acc ++ [(x, y)] ≠ [] := by simp
        rcases hacc : acc ++ [(x, y)] with _ | ⟨p, t⟩
        · exact absurd hacc hne
        · rw [bucketStep]
          simp only [hf, if_false]
          rw [← hacc, updateLast_concat]
      rw [List.foldl_cons, hstep, ih acc x (y + f.vmaf / (fr : ℚ))
        (fun g hg => hw g (by simp [hg]))]
      congr 2
      rw [List.map_cons, List.sum_cons, add_div, add_assoc]

theorem bucketFold_chunks (fr : Nat) (hfr : 0 < fr) :
    ∀ (n : Nat) (fs : List VmafFrame) (s : Nat) (acc : List (Nat × ℚ)),
    fs.length ≤ n → s % fr = 0 →
    fs.map VmafFrame.frameNum = List.range' s fs.length →
    ∃ bs, fs.foldl (bucketStep fr) (some acc) = some (acc ++ bs) ∧
      bs.map Prod.snd =
        (chunksOf fr (fs.map VmafFrame.vmaf)).map (fun c => c.sum / (fr : ℚ)) := by
  intro n
  induction n with
  | zero =>
      intro fs s acc hlen _ _
      have : fs = [] := List.length_eq_zero.mp (Nat.le_zero.mp hlen)
      subst this
      exact ⟨[], by simp, by simp [chunksOf]⟩
  | succ n ih =>
      intro fs s acc hlen hs hnum
      cases fs with
      | nil => exact ⟨[], by simp, by simp [chunksOf]⟩
      | cons f rest =>
          have hlen' : (f :: rest).length = rest.length + 1 := rfl
          rw [hlen', List.range'_succ] at hnum
          have hf : f.frameNum = s := by
            have := congrArg (fun l => l.headD 0) hnum
            simpa using this
          have hrest : rest.map VmafFrame.frameNum = List.range' (s + 1) rest.length := by
            have := congrArg List.tail hnum
            simpa using this
          set w := rest.take (fr - 1) with hw
          set rest' := rest.drop (fr - 1) with hrest'
          have hwnum : w.map VmafFrame.frameNum = List.range' (s + 1) (min (fr - 1) rest.length) := by
            rw [hw, List.map_take, hrest, range'_take]
          have hwnotal : ∀ g ∈ w, ¬ g.frameNum % fr = 0 := by
            intro g hg
            have : g.frameNum ∈ List.range' (s + 1) (min (fr - 1) rest.length) := by
              rw [← hwnum]
              exact List.mem_map_of_mem _ hg
            rw [List.mem_range'] at this
            obtain ⟨i, hi, hgi⟩ := this
            have hd : g.frameNum = s + (1 + i) := by omega
            have hdlt : 1 + i < fr := by omega
            rw [hd, Nat.add_mod, hs, Nat.zero_add, Nat.mod_mod_of_dvd _ dvd_rfl,
              Nat.mod_eq_of_lt hdlt]
            omega
          have hstep : bucketStep fr (some acc) f =
              some (acc ++ [(f.frameNum, f.vmaf / (fr : ℚ))]) := by
            simp [bucketStep, hf, hs]
          have hsplit : rest = w ++ rest' := (List.take_append_drop _ _).symm
          have hfold : (f :: rest).foldl (bucketStep fr) (some acc) =
              rest'.foldl (bucketStep fr)
                (some (acc ++ [(f.frameNum, f.vmaf / (fr : ℚ) + (w.map VmafFrame.vmaf).sum / (fr : ℚ))])) := by
            rw [List.foldl_cons, hstep]
            conv =>
              lhs
              rw [hsplit, List.foldl_append]
            rw [bucketFold_within fr w acc f.frameNum (f.vmaf / (fr : ℚ)) hwnotal]
          have hrest'num : rest'.map VmafFrame.frameNum =
              List.range' (s + fr) rest'.length := by
            rw [hrest', List.map_drop, hrest, range'_drop, List.length_drop]
            have h1 : s + 1 + (fr - 1) = s + fr := by omega
            rw [h1]
          have hs' : (s + fr) % fr = 0 := by
            rw [Nat.add_mod, hs, Nat.mod_self]
            simp
          have hlen'' : rest'.length ≤ n := by
            have : rest'.length ≤ rest.length := by
              rw [hrest', List.length_drop]
              omega
            have hr : rest.length + 1 ≤ n + 1 := hlen
            omega
          obtain ⟨bs', hbs', hsnd'⟩ := ih rest' (s + fr)
            (acc ++ [(f.frameNum, f.vmaf / (fr : ℚ) + (w.map VmafFrame.vmaf).sum / (fr : ℚ))])
            hlen'' hs' hrest'num
          refine ⟨(f.frameNum, f.vmaf / (fr : ℚ) + (w.map VmafFrame.vmaf).sum / (fr : ℚ)) :: bs', ?_, ?_⟩
          · rw [hfold, hbs']
            simp
          · have hchunk : chunksOf fr ((f :: rest).map VmafFrame.vmaf) =
                (f.vmaf :: w.map VmafFrame.vmaf) :: chunksOf fr (rest'.map VmafFrame.vmaf) := by
              rw [List.map_cons, chunksOf]
              congr 2
              · rw [hw, List.map_take]
              · rw [hrest', List.map_drop]
            rw [hchunk, List.map_cons, List.map_cons, ← hsnd']
            congr 1
            rw [List.sum_cons, add_div]

/-- Claim C5 (amended): on a consecutively numbered series starting at a
multiple of `frameRate`, the fold buckets the frames into windows of
`frameRate` frames; every bucket's value is the window's sum divided by
`frameRate`, which equals the arithmetic mean for every full window (the
trailing window may be shorter and then gets sum over `frameRate`, not its
mean). -/
theorem claim_C5_bucket_means (fr : Nat) (hfr : 0 < fr) (fs : List VmafFrame)
    (s : Nat) (hs : s % fr = 0)
    (hnum : fs.map VmafFrame.frameNum = List.range' s fs.length) :
    ∃ bs, writeGraphData fr fs = some bs ∧
      bs.map Prod.snd =
        (chunksOf fr (fs.map VmafFrame.vmaf)).map (fun c => c.sum / (fr : ℚ)) ∧
      ∀ c ∈ chunksOf fr (fs.map VmafFrame.vmaf), c.length = fr →
        c.sum / (fr : ℚ) = c.sum / (c.length : ℚ) := by
  obtain ⟨bs, hbs, hsnd⟩ := bucketFold_chunks fr hfr fs.length fs s [] le_rfl hs hnum
  exact ⟨bs, by simpa [writeGraphData] using hbs, hsnd, fun c _ hc => by rw [hc]⟩

/-- Witness for C5 at a concrete aligned series of four frames at
`frameRate = 2`. -/
theorem claim_C5_bucket_means_witness :
    0 < 2 ∧ (0 : Nat) % 2 = 0 ∧
      ([⟨0, 4⟩, ⟨1, 6⟩, ⟨2, 10⟩, (⟨3, 2⟩ : VmafFrame)].map VmafFrame.frameNum =
        List.range' 0 4) ∧
      ∃ bs, writeGraphData 2 [⟨0, 4⟩, ⟨1, 6⟩, ⟨2, 10⟩, ⟨3, 2⟩] = some bs ∧
        bs.map Prod.snd =
          (chunksOf 2 ([⟨0, 4⟩, ⟨1, 6⟩, ⟨2, 10⟩, (⟨3, 2⟩ : VmafFrame)].map VmafFrame.vmaf)).map
            (fun c => c.sum / (2 : ℚ)) ∧
        ∀ c ∈ chunksOf 2 ([⟨0, 4⟩, ⟨1, 6⟩, ⟨2, 10⟩, (⟨3, 2⟩ : VmafFrame)].map VmafFrame.vmaf),
          c.length = 2 → c.sum / (2 : ℚ) = c.sum / (c.length : ℚ) :=
  ⟨by decide, by decide, by decide,
    claim_C5_bucket_means 2 (by decide) _ 0 (by decide) (by decide)⟩

/-- Counterexample to C5 as stated: at `frameRate = 2`, the three-frame
series with values `1, 1, 1` produces a trailing bucket of value `1/2`,
but the only value falling in that trailing window is `1`, whose
arithmetic mean is `1`, not `1/2`. -/
theorem claim_C5_counterexample :
    writeGraphData 2 [⟨0, 1⟩, ⟨1, 1⟩, ⟨2, 1⟩] = some [(0, 1), (2, 1/2)] ∧
      chunksOf 2 (([⟨0, 1⟩, ⟨1, 1⟩, ⟨2, 1⟩] : List VmafFrame).map VmafFrame.vmaf) = [[1, 1], [1]] ∧
      ([(1 : ℚ)].sum / ([(1 : ℚ)].length : ℚ) = 1) ∧ (1 : ℚ) / 2 ≠ 1 := by
  refine ⟨?_, ?_, by norm_num, by norm_num⟩
  · simp [writeGraphData, bucketStep, updateLast]
    norm_num
  · simp [chunksOf]

/-! ## Lemmas about the reconciliation pass -/

theorem getD_of_drop_cons : ∀ (l : List Nat) (n x : Nat) (xs : List Nat),
    l.drop n = x :: xs → l.getD n 0 = x := by
  intro l
  induction l with
  | nil => intro n x xs h; simp at h
  | cons a t ih =>
      intro n x xs h
      cases n with
      | zero =>
          simp only [List.drop_zero] at h
          rw [h]
          rfl
      | succ j => exact ih j x xs (by simpa using h)

theorem drop_succ_of_drop_cons (l : List Nat) (n x : Nat) (xs : List Nat)
    (h : l.drop n = x :: xs) : l.drop (n + 1) = xs := by
  have h1 : l.drop (n + 1) = (l.drop n).drop 1 := (List.drop_drop 1 n l).symm
  rw [h1, h]
  rfl

theorem jsTruthy_some_ne (v : Nat) (hv : v ≠ 0) : jsTruthy (some v) = true := by
  cases v with
  | zero => exact absurd rfl hv
  | succ n => rfl

theorem sortKeys_eq_of_sorted {α : Type} (m : List (Nat × α))
    (hm : (m.map Prod.fst).Sorted (· < ·)) : sortKeys m = m.map Prod.fst :=
  List.Sorted.insertionSort_eq (hm.imp fun h => le_of_lt h)

/-- The reconciliation loop, run from position `i ≥ 1` on the still
untouched suffix of entries, computes exactly the spec-side forward
interpolation: `outPre` is the already processed prefix (entries kept,
updated in place, or deleted), `pk` the previous key and `pv` the
previous entry's current (post-substitution) value as the map lookup
reports it. -/
theorem reconcileGo_spec (ks : List Nat) :
    ∀ (suffix outPre : List (Nat × Nat)) (i pk : Nat) (pv : Option Nat),
    1 ≤ i →
    ks.drop (i - 1) = pk :: suffix.map Prod.fst →
    (pk :: suffix.map Prod.fst).Sorted (· < ·) →
    (∀ a ∈ outPre.map Prod.fst, a ≤ pk) →
    mapGet (outPre ++ suffix) pk = pv →
    reconcileGo ks (List.enumFrom i (suffix.map Prod.fst)) (outPre ++ suffix) =
      outPre ++ reconcileSpecAux pk pv suffix := by
  intro suffix
  induction suffix with
  | nil =>
      intro outPre i pk pv _ _ _ _ _
      simp [reconcileSpecAux, reconcileGo]
  | cons kv rest ih =>
      rcases kv with ⟨k, v⟩
      intro outPre i pk pv hi hks hsort houtPre hbridge
      rw [List.map_cons] at hsort
      have hpk_lt_k : pk < k := (List.sorted_cons.mp hsort).1 k (by simp)
      have hk_notin_outPre : k ∉ outPre.map Prod.fst := by
        intro hc
        have := houtPre k hc
        omega
      have hk_lt_rest : ∀ b ∈ rest.map Prod.fst, k < b :=
        (List.sorted_cons.mp (List.sorted_cons.mp hsort).2).1
      have hk_notin_rest : k ∉ rest.map Prod.fst := by
        intro hc
        exact absurd (hk_lt_rest k hc) (lt_irrefl k)
      have hget_k : mapGet (outPre ++ (k, v) :: rest) k = some v := by
        rw [mapGet_append_notin _ _ _ hk_notin_outPre, mapGet_cons_self]
      have hgetD : ks.getD (i - 1) 0 = pk := getD_of_drop_cons ks (i - 1) pk _ hks
      have hdropi : ks.drop i = k :: rest.map Prod.fst := by
        have h1 := drop_succ_of_drop_cons ks (i - 1) pk _ hks
        have h2 : i - 1 + 1 = i := by omega
        rw [h2] at h1
        simpa using h1
      have hsort' : (k :: rest.map Prod.fst).Sorted (· < ·) :=
        (List.sorted_cons.mp hsort).2
      have hi0 : (i == 0) = false := by
        simp only [beq_eq_false_iff_ne, ne_eq]
        omega
      rw [List.map_cons, List.enumFrom_cons]
      by_cases hv : v = 0
      · subst hv
        rw [reconcileGo]
        simp only [hget_k, hgetD, hbridge, hi0, Bool.or_false]
        have hfalsy : jsTruthy (some 0) = false := rfl
        rw [hfalsy, if_neg (by simp)]
        match pv, hbridge with
        | some p, hbridge =>
            dsimp only
            by_cases hp : p = 0
            · subst hp
              rw [if_neg (by simp)]
              have hdel : mapDelete (outPre ++ (k, 0) :: rest) k = outPre ++ rest := by
                rw [mapDelete_append_notin _ _ _ hk_notin_outPre]
                simp [mapDelete]
              rw [hdel]
              have hbridge' : mapGet (outPre ++ rest) k = none := by
                apply mapGet_eq_none_of_notin
                rw [List.map_append, List.mem_append]
                rintro (hc | hc)
                · exact hk_notin_outPre hc
                · exact hk_notin_rest hc
              have := ih outPre (i + 1) k none (by omega) (by simpa using hdropi)
                hsort' (fun a ha => le_of_lt (lt_of_le_of_lt (houtPre a ha) hpk_lt_k))
                hbridge'
              rw [this, reconcileSpecAux]
              simp
            · rw [if_pos hp]
              have hset : mapSet (outPre ++ (k, 0) :: rest) k (p + k - pk) =
                  (outPre ++ [(k, p + k - pk)]) ++ rest := by
                rw [mapSet_append_notin _ _ _ _ hk_notin_outPre]
                simp [mapSet]
              rw [hset]
              have hbridge' : mapGet ((outPre ++ [(k, p + k - pk)]) ++ rest) k =
                  some (p + k - pk) := by
                rw [List.append_assoc, List.singleton_append,
                  mapGet_append_notin _ _ _ hk_notin_outPre, mapGet_cons_self]
              have houtPre' : ∀ a ∈ (outPre ++ [(k, p + k - pk)]).map Prod.fst, a ≤ k := by
                intro a ha
                rw [List.map_append, List.mem_append] at ha
                rcases ha with ha | ha
                · exact le_of_lt (lt_of_le_of_lt (houtPre a ha) hpk_lt_k)
                · simp at ha
                  omega
              have := ih (outPre ++ [(k, p + k - pk)]) (i + 1) k (some (p + k - pk))
                (by omega) (by simpa using hdropi) hsort' houtPre' hbridge'
              rw [this, reconcileSpecAux]
              simp [hp]
        | none, hbridge =>
            dsimp only
            have hdel : mapDelete (outPre ++ (k, 0) :: rest) k = outPre ++ rest := by
              rw [mapDelete_append_notin _ _ _ hk_notin_outPre]
              simp [mapDelete]
            rw [hdel]
            have hbridge' : mapGet (outPre ++ rest) k = none := by
              apply mapGet_eq_none_of_notin
              rw [List.map_append, List.mem_append]
              rintro (hc | hc)
              · exact hk_notin_outPre hc
              · exact hk_notin_rest hc
            have := ih outPre (i + 1) k none (by omega) (by simpa using hdropi)
              hsort' (fun a ha => le_of_lt (lt_of_le_of_lt (houtPre a ha) hpk_lt_k))
              hbridge'
            rw [this, reconcileSpecAux]
            simp
      · rw [reconcileGo]
        simp only [hget_k]
        rw [jsTruthy_some_ne v hv, Bool.true_or, if_pos rfl]
        have happ : outPre ++ (k, v) :: rest = (outPre ++ [(k, v)]) ++ rest := by
          simp
        have hbridge' : mapGet ((outPre ++ [(k, v)]) ++ rest) k = some v := by
          rw [List.append_assoc, List.singleton_append,
            mapGet_append_notin _ _ _ hk_notin_outPre, mapGet_cons_self]
        have houtPre' : ∀ a ∈ (outPre ++ [(k, v)]).map Prod.fst, a ≤ k := by
          intro a ha
          rw [List.map_append, List.mem_append] at ha
          rcases ha with ha | ha
          · exact le_of_lt (lt_of_le_of_lt (houtPre a ha) hpk_lt_k)
          · simp at ha
            omega
        have := ih (outPre ++ [(k, v)]) (i + 1) k (some v) (by omega)
          (by simpa using hdropi) hsort' houtPre' hbridge'
        rw [happ, this]
        cases pv with
        | none =>
            rw [reconcileSpecAux, if_pos hv]
            simp
        | some p =>
            rw [reconcileSpecAux, if_pos hv]
            simp

/-- Claim C3: the reconciliation loop (map lookups, in-place `Map.set`
updates and `Map.delete` drops, walking the sorted keys) computes exactly
the spec-side forward interpolation `reconcileSpec` — every sentinel
non-first entry becomes the predecessor's resolved value plus the key
difference (chaining through consecutive substitutions), and an entry
whose predecessor has no usable value is deleted; in particular
`[1000, 0, 0, 1200]` at keys `[10, 11, 12, 13]` reconciles to
`[1000, 1001, 1002, 1200]`, and a sentinel whose predecessor is also
unusable is dropped. -/
theorem claim_C3_reconciliation_interpolates (m : List (Nat × Nat))
    (hm : (m.map Prod.fst).Sorted (· < ·)) :
    reconcile m = reconcileSpec m ∧
    reconcile [(10, 1000), (11, 0), (12, 0), (13, 1200)] =
      [(10, 1000), (11, 1001), (12, 1002), (13, 1200)] ∧
    reconcile [(10, 0), (11, 0), (12, 5)] = [(10, 0), (12, 5)] := by
  refine ⟨?_, by decide, by decide⟩
  cases m with
  | nil => rfl
  | cons kv rest =>
      rcases kv with ⟨k0, v0⟩
      have hkeys : sortKeys ((k0, v0) :: rest) = k0 :: rest.map Prod.fst := by
        rw [sortKeys_eq_of_sorted _ hm, List.map_cons]
      unfold reconcile
      rw [hkeys, List.enum_cons, reconcileGo]
      simp only [beq_self_eq_true, Bool.or_true, if_true]
      exact reconcileGo_spec (k0 :: rest.map Prod.fst) rest [(k0, v0)] 1 k0 (some v0)
        le_rfl (by simp) (by rw [List.map_cons] at hm; exact hm) (by simp)
        (by rw [List.singleton_append, mapGet_cons_self])

/-- Witness for C3 at a concrete sorted recognition map. -/
theorem claim_C3_reconciliation_interpolates_witness :
    (([(2, 9), (5, 0)] : List (Nat × Nat)).map Prod.fst).Sorted (· < ·) ∧
      (reconcile [(2, 9), (5, 0)] = reconcileSpec [(2, 9), (5, 0)] ∧
        reconcile [(10, 1000), (11, 0), (12, 0), (13, 1200)] =
          [(10, 1000), (11, 1001), (12, 1002), (13, 1200)] ∧
        reconcile [(10, 0), (11, 0), (12, 5)] = [(10, 0), (12, 5)]) :=
  ⟨by decide, claim_C3_reconciliation_interpolates [(2, 9), (5, 0)] (by decide)⟩

/-! ## Idempotence on fully recognized input, and re-keying collisions -/

theorem mapGet_isSome_of_mem_keys {α : Type} (m : List (Nat × α)) (k : Nat)
    (h : k ∈ m.map Prod.fst) : ∃ v, mapGet m k = some v := by
  induction m with
  | nil => simp at h
  | cons p rest ih =>
      rcases p with ⟨k', v'⟩
      by_cases hk : k' = k
      · exact ⟨v', by simp [mapGet, hk]⟩
      · have h' : k ∈ rest.map Prod.fst := by
          rcases List.mem_cons.mp h with hc | hc
          · exact absurd hc.symm hk
          · exact hc
        obtain ⟨v, hv⟩ := ih h'
        exact ⟨v, by simp [mapGet, hk, hv]⟩

theorem snd_mem_of_mem_enumFrom {α : Type} :
    ∀ (l : List α) (j : Nat) (p : Nat × α), p ∈ l.enumFrom j → p.2 ∈ l := by
  intro l
  induction l with
  | nil => intro j p h; simp at h
  | cons a t ih =>
      intro j p h
      rw [List.enumFrom_cons, List.mem_cons] at h
      rcases h with h | h
      · rw [h]
        simp
      · exact List.mem_cons_of_mem _ (ih (j + 1) p h)

theorem reconcileGo_no_change (ks : List Nat) :
    ∀ (pairs : List (Nat × Nat)) (m : List (Nat × Nat)),
    (∀ kv ∈ m, kv.2 ≠ 0) → (∀ pr ∈ pairs, pr.2 ∈ m.map Prod.fst) →
    reconcileGo ks pairs m = m := by
  intro pairs
  induction pairs with
  | nil => intro m _ _; rfl
  | cons pr rest ih =>
      rcases pr with ⟨i, pts⟩
      intro m hm hp
      obtain ⟨v, hv⟩ := mapGet_isSome_of_mem_keys m pts (hp (i, pts) (by simp))
      have hvne : v ≠ 0 := hm (pts, v) (mapGet_eq_some_mem m pts v hv)
      rw [reconcileGo]
      simp only [hv, jsTruthy_some_ne v hvne, Bool.true_or, if_true]
      exact ih m hm fun pr hpr => hp pr (by simp [hpr])

theorem mem_keys_mapSet {α : Type} (acc : List (Nat × α)) (k : Nat) (v : α) (a : Nat) :
    a ∈ (mapSet acc k v).map Prod.fst ↔ a = k ∨ a ∈ acc.map Prod.fst := by
  induction acc with
  | nil => simp [mapSet]
  | cons p rest ih =>
      rcases p with ⟨k', v'⟩
      by_cases hk : k' = k
      · subst hk
        simp [mapSet]
      · simp only [mapSet, if_neg hk, List.map_cons, List.mem_cons, ih]
        tauto

theorem rekeyGo_keys (rec : List (Nat × Nat)) :
    ∀ (fs : List (Nat × IvfFrame)) (acc : List (Nat × IvfFrame)) (r : Nat),
    r ∈ (rekeyGo rec fs acc).map Prod.fst ↔
      r ∈ acc.map Prod.fst ∨ ∃ k fr, (k, fr) ∈ fs ∧ mapGet rec k = some r ∧ r ≠ 0 := by
  intro fs
  induction fs with
  | nil => simp [rekeyGo]
  | cons p rest ih =>
      rcases p with ⟨pts, frame⟩
      intro acc r
      cases hg : mapGet rec pts with
      | none =>
          rw [rekeyGo, hg]
          dsimp only
          rw [ih]
          constructor
          · rintro (h | ⟨k, fr, hmem, hget, hr⟩)
            · exact Or.inl h
            · exact Or.inr ⟨k, fr, List.mem_cons_of_mem _ hmem, hget, hr⟩
          · rintro (h | ⟨k, fr, hmem, hget, hr⟩)
            · exact Or.inl h
            · rcases List.mem_cons.mp hmem with hc | hc
              · rw [Prod.mk.injEq] at hc
                rw [hc.1] at hget
                rw [hg] at hget
                exact absurd hget (by simp)
              · exact Or.inr ⟨k, fr, hc, hget, hr⟩
      | some r' =>
          by_cases hr' : r' = 0
          · subst hr'
            rw [rekeyGo, hg]
            dsimp only
            rw [if_neg (by simp), ih]
            constructor
            · rintro (h | ⟨k, fr, hmem, hget, hr⟩)
              · exact Or.inl h
              · exact Or.inr ⟨k, fr, List.mem_cons_of_mem _ hmem, hget, hr⟩
            · rintro (h | ⟨k, fr, hmem, hget, hr⟩)
              · exact Or.inl h
              · rcases List.mem_cons.mp hmem with hc | hc
                · rw [Prod.mk.injEq] at hc
                  rw [hc.1] at hget
                  rw [hg] at hget
                  simp at hget
                  exact absurd hget.symm hr
                · exact Or.inr ⟨k, fr, hc, hget, hr⟩
          · rw [rekeyGo, hg]
            dsimp only
            rw [if_pos hr', ih, mem_keys_mapSet]
            constructor
            · rintro ((h | h) | ⟨k, fr, hmem, hget, hr⟩)
              · exact Or.inr ⟨pts, frame, by simp, by rw [hg, h], by rw [h]; exact hr'⟩
              · exact Or.inl h
              · exact Or.inr ⟨k, fr, List.mem_cons_of_mem _ hmem, hget, hr⟩
            · rintro (h | ⟨k, fr, hmem, hget, hr⟩)
              · exact Or.inl (Or.inr h)
              · rcases List.mem_cons.mp hmem with hc | hc
                · rw [Prod.mk.injEq] at hc
                  rw [hc.1] at hget
                  rw [hg] at hget
                  simp at hget
                  exact Or.inl (Or.inl hget.symm)
                · exact Or.inr ⟨k, fr, hc, hget, hr⟩

/-- Claim C4: when every recognition value is non-sentinel and every
catalogued frame has a recognition entry, the reconciliation pass changes
nothing, and the recovered catalogue's key set is exactly the set of
recognized timestamp values. -/
theorem claim_C4_reconcile_idempotent_on_recognized (m : List (Nat × Nat))
    (frames : List (Nat × IvfFrame))
    (hm : ∀ kv ∈ m, kv.2 ≠ 0)
    (_hrec : ∀ k ∈ frames.map Prod.fst, (mapGet m k).isSome) :
    reconcile m = m ∧
    ∀ r, r ∈ (rekeyFrames frames (reconcile m)).map Prod.fst ↔
      ∃ k, k ∈ frames.map Prod.fst ∧ mapGet m k = some r := by
  have h1 : reconcile m = m := by
    apply reconcileGo_no_change _ _ m hm
    intro pr hpr
    have h2 : pr.2 ∈ sortKeys m := snd_mem_of_mem_enumFrom _ 0 pr hpr
    simpa [sortKeys, mapKeys] using h2
  refine ⟨h1, ?_⟩
  intro r
  rw [h1]
  unfold rekeyFrames
  rw [rekeyGo_keys]
  simp only [List.map_nil, List.not_mem_nil, false_or]
  constructor
  · rintro ⟨k, fr, hmem, hget, _⟩
    exact ⟨k, List.mem_map_of_mem _ hmem, hget⟩
  · rintro ⟨k, hk, hget⟩
    obtain ⟨kv, hkv, hfst⟩ := List.mem_map.mp hk
    have hr : r ≠ 0 := hm (k, r) (mapGet_eq_some_mem m k r hget)
    exact ⟨k, kv.2, by rw [← hfst]; exact hkv, hget, hr⟩

/-- Witness for C4 at a concrete fully recognized map. -/
theorem claim_C4_reconcile_idempotent_on_recognized_witness :
    (∀ kv ∈ ([(3, 7), (1, 2)] : List (Nat × Nat)), kv.2 ≠ 0) ∧
    (∀ k ∈ ([(1, (⟨0, 32, 13⟩ : IvfFrame)), (3, ⟨1, 45, 13⟩)] :
        List (Nat × IvfFrame)).map Prod.fst, (mapGet [(3, 7), (1, 2)] k).isSome) ∧
    (reconcile [(3, 7), (1, 2)] = [(3, 7), (1, 2)] ∧
      ∀ r, r ∈ (rekeyFrames [(1, ⟨0, 32, 13⟩), (3, ⟨1, 45, 13⟩)]
          (reconcile [(3, 7), (1, 2)])).map Prod.fst ↔
        ∃ k, k ∈ ([(1, (⟨0, 32, 13⟩ : IvfFrame)), (3, ⟨1, 45, 13⟩)] :
          List (Nat × IvfFrame)).map Prod.fst ∧ mapGet [(3, 7), (1, 2)] k = some r) :=
  ⟨by decide, by decide,
    claim_C4_reconcile_idempotent_on_recognized [(3, 7), (1, 2)]
      [(1, ⟨0, 32, 13⟩), (3, ⟨1, 45, 13⟩)] (by decide) (by decide)⟩

theorem rekeyGo_append (rec : List (Nat × Nat)) :
    ∀ (l1 l2 : List (Nat × IvfFrame)) (acc : List (Nat × IvfFrame)),
    rekeyGo rec (l1 ++ l2) acc = rekeyGo rec l2 (rekeyGo rec l1 acc) := by
  intro l1
  induction l1 with
  | nil => intro l2 acc; rfl
  | cons p rest ih =>
      rcases p with ⟨pts, frame⟩
      intro l2 acc
      rw [List.cons_append, rekeyGo, rekeyGo]
      cases hg : mapGet rec pts with
      | none => exact ih l2 acc
      | some r =>
          dsimp only
          by_cases hr : r = 0
          · subst hr
            rw [if_neg (by simp), if_neg (by simp)]
            exact ih l2 acc
          · rw [if_pos hr, if_pos hr]
            exact ih l2 (mapSet acc r frame)

/-- Claim C9: when a later-iterated frame resolves to an already used
recovered timestamp, `Map.set` silently replaces the earlier frame (the
recovered catalogue reports the later frame), whereas the parse pass keeps
the first frame of a duplicated pts and skips the later one — shown on a
two-frame file whose frames share pts 5: the catalogue keeps the first
frame's record `{index 0, position 32, size 13}` only. -/
theorem claim_C9_rekey_collision_last_wins (rec : List (Nat × Nat))
    (fs : List (Nat × IvfFrame)) (p2 : Nat) (f2 : IvfFrame) (r : Nat)
    (hget : mapGet rec p2 = some r) (hr : r ≠ 0) :
    mapGet (rekeyFrames (fs ++ [(p2, f2)]) rec) r = some f2 ∧
    parseIvfPlain
        (List.replicate 32 0 ++ u32le 1 ++ u64le 5 ++ [7] ++ u32le 1 ++ u64le 5 ++ [9]) =
      some ⟨0, 0, 0, 0, [(5, ⟨0, 32, 13⟩)], [5]⟩ := by
  constructor
  · unfold rekeyFrames
    rw [rekeyGo_append, rekeyGo, hget]
    dsimp only
    rw [if_pos hr, rekeyGo]
    exact mapGet_mapSet_self _ r f2
  · decide

/-- Witness for C9 at a concrete collision. -/
theorem claim_C9_rekey_collision_last_wins_witness :
    mapGet [(4, 9)] 4 = some 9 ∧ (9 : Nat) ≠ 0 ∧
      (mapGet (rekeyFrames ([(2, ⟨0, 32, 13⟩)] ++ [(4, (⟨1, 45, 13⟩ : IvfFrame))]) [(4, 9)]) 9 =
          some ⟨1, 45, 13⟩ ∧
        parseIvfPlain
            (List.replicate 32 0 ++ u32le 1 ++ u64le 5 ++ [7] ++ u32le 1 ++ u64le 5 ++ [9]) =
          some ⟨0, 0, 0, 0, [(5, ⟨0, 32, 13⟩)], [5]⟩) :=
  ⟨by decide, by decide,
    claim_C9_rekey_collision_last_wins [(4, 9)] [(2, ⟨0, 32, 13⟩)] 4 ⟨1, 45, 13⟩ 9
      (by decide) (by decide)⟩

/-! ## Byte-accessor lemmas for patched buffers -/

theorem getByte_take (bs : List Nat) : ∀ (n k : Nat), k < n →
    getByte (bs.take n) k = getByte bs k := by
  induction bs with
  | nil => intro n k _; simp [getByte]
  | cons a t ih =>
      intro n k hk
      cases n with
      | zero => omega
      | succ m =>
          cases k with
          | zero => rfl
          | succ j => exact ih m j (by omega)

theorem getByte_drop (bs : List Nat) : ∀ (n k : Nat),
    getByte (bs.drop n) k = getByte bs (n + k) := by
  induction bs with
  | nil => intro n k; simp [getByte]
  | cons a t ih =>
      intro n k
      cases n with
      | zero => simp
      | succ m =>
          rw [List.drop_succ_cons, ih m k]
          have h1 : m + 1 + k = (m + k) + 1 := by omega
          rw [h1]
          rfl

theorem length_readBuf (file : List Nat) (pos len : Nat) :
    (readBuf file pos len).length = len := by
  simp [readBuf]

theorem length_setBytesAt (bs : List Nat) (off : Nat) (nb : List Nat)
    (h : off + nb.length ≤ bs.length) :
    (setBytesAt bs off nb).length = bs.length := by
  simp only [setBytesAt, List.length_append, List.length_take, List.length_drop]
  omega

theorem setBytesAt_assoc (bs : List Nat) (off : Nat) (nb : List Nat) :
    setBytesAt bs off nb = bs.take off ++ (nb ++ bs.drop (off + nb.length)) := by
  simp [setBytesAt, List.append_assoc]

theorem setBytesAt_setBytesAt (bs : List Nat) (off : Nat) (nb1 nb2 : List Nat)
    (hlen : nb1.length = nb2.length) (h : off + nb1.length ≤ bs.length) :
    setBytesAt (setBytesAt bs off nb1) off nb2 = setBytesAt bs off nb2 := by
  have htk : (bs.take off).length = off := by
    rw [List.length_take]
    omega
  unfold setBytesAt
  rw [show List.take off (List.take off bs ++ nb1 ++ List.drop (off + nb1.length) bs) =
      List.take off bs from by
    rw [List.append_assoc]
    exact List.take_left' htk]
  rw [show List.drop (off + nb2.length) (List.take off bs ++ nb1 ++
      List.drop (off + nb1.length) bs) = List.drop (off + nb1.length) bs from
    List.drop_left' (by rw [List.length_append, htk, hlen])]
  rw [hlen]

theorem getU64le_at (pre suf : List Nat) (v off : Nat) (hoff : pre.length = off) :
    getU64le (pre ++ (u64le v ++ suf)) off = v % 18446744073709551616 := by
  subst hoff
  unfold getU64le
  have h0 : getByte (pre ++ (u64le v ++ suf)) pre.length = getByte (u64le v ++ suf) 0 := by
    simpa using getByte_append_right pre (u64le v ++ suf) 0
  rw [h0, getByte_append_right pre (u64le v ++ suf) 1,
    getByte_append_right pre (u64le v ++ suf) 2, getByte_append_right pre (u64le v ++ suf) 3,
    getByte_append_right pre (u64le v ++ suf) 4, getByte_append_right pre (u64le v ++ suf) 5,
    getByte_append_right pre (u64le v ++ suf) 6, getByte_append_right pre (u64le v ++ suf) 7]
  rw [getByte_append_left (u64le v) suf 0 (by simp [u64le]),
    getByte_append_left (u64le v) suf 1 (by simp [u64le]),
    getByte_append_left (u64le v) suf 2 (by simp [u64le]),
    getByte_append_left (u64le v) suf 3 (by simp [u64le]),
    getByte_append_left (u64le v) suf 4 (by simp [u64le]),
    getByte_append_left (u64le v) suf 5 (by simp [u64le]),
    getByte_append_left (u64le v) suf 6 (by simp [u64le]),
    getByte_append_left (u64le v) suf 7 (by simp [u64le])]
  simp only [u64le, getByte, List.getD_cons_zero, List.getD_cons_succ]
  omega

theorem getU32le_at (pre suf : List Nat) (v off : Nat) (hoff : pre.length = off) :
    getU32le (pre ++ (u32le v ++ suf)) off = v % 4294967296 := by
  subst hoff
  unfold getU32le
  have h0 : getByte (pre ++ (u32le v ++ suf)) pre.length = getByte (u32le v ++ suf) 0 := by
    simpa using getByte_append_right pre (u32le v ++ suf) 0
  rw [h0, getByte_append_right pre (u32le v ++ suf) 1,
    getByte_append_right pre (u32le v ++ suf) 2, getByte_append_right pre (u32le v ++ suf) 3]
  rw [getByte_append_left (u32le v) suf 0 (by simp [u32le]),
    getByte_append_left (u32le v) suf 1 (by simp [u32le]),
    getByte_append_left (u32le v) suf 2 (by simp [u32le]),
    getByte_append_left (u32le v) suf 3 (by simp [u32le])]
  simp only [u32le, getByte, List.getD_cons_zero, List.getD_cons_succ]
  omega

theorem getU64le_setBytesAt4 (bs : List Nat) (v : Nat) (h : 12 ≤ bs.length) :
    getU64le (setBytesAt bs 4 (u64le v)) 4 = v % 18446744073709551616 := by
  rw [setBytesAt_assoc]
  exact getU64le_at (bs.take 4) (bs.drop (4 + (u64le v).length)) v 4
    (by rw [List.length_take]; omega)

theorem getU32le_setBytesAt24 (bs : List Nat) (v : Nat) (h : 28 ≤ bs.length) :
    getU32le (setBytesAt bs 24 (u32le v)) 24 = v % 4294967296 := by
  rw [setBytesAt_assoc]
  exact getU32le_at (bs.take 24) (bs.drop (24 + (u32le v).length)) v 24
    (by rw [List.length_take]; omega)

theorem getByte_setBytesAt_before (bs : List Nat) (off : Nat) (nb : List Nat)
    (i : Nat) (hi : i < off) (hoff : off ≤ bs.length) :
    getByte (setBytesAt bs off nb) i = getByte bs i := by
  have htk : (bs.take off).length = off := by
    rw [List.length_take]
    omega
  rw [setBytesAt_assoc, getByte_append_left _ _ i (by rw [htk]; exact hi),
    getByte_take bs off i hi]

theorem getByte_setBytesAt_after (bs : List Nat) (off : Nat) (nb : List Nat)
    (i : Nat) (hi : off + nb.length ≤ i) (hoff : off + nb.length ≤ bs.length) :
    getByte (setBytesAt bs off nb) i = getByte bs i := by
  have htk : (bs.take off).length = off := by
    rw [List.length_take]
    omega
  have hfront : ((bs.take off ++ nb)).length = off + nb.length := by
    rw [List.length_append, htk]
  have hsplit : i = (bs.take off ++ nb).length + (i - off - nb.length) := by
    rw [hfront]
    omega
  unfold setBytesAt
  conv =>
    lhs
    rw [hsplit]
  rw [getByte_append_right (bs.take off ++ nb) (bs.drop (off + nb.length))
    (i - off - nb.length), getByte_drop]
  congr 1
  omega

theorem getU32le_setBytesAt4_front (bs : List Nat) (nb : List Nat) (h : 4 ≤ bs.length) :
    getU32le (setBytesAt bs 4 nb) 0 = getU32le bs 0 := by
  unfold getU32le
  rw [getByte_setBytesAt_before bs 4 nb 0 (by omega) h,
    getByte_setBytesAt_before bs 4 nb 1 (by omega) h,
    getByte_setBytesAt_before bs 4 nb 2 (by omega) h,
    getByte_setBytesAt_before bs 4 nb 3 (by omega) h]

theorem getU32le_shift (pre rest : List Nat) (off n : Nat) (hoff : pre.length = n) :
    getU32le (pre ++ rest) (n + off) = getU32le rest off := by
  subst hoff
  unfold getU32le
  rw [getByte_append_right pre rest off]
  have h1 : pre.length + off + 1 = pre.length + (off + 1) := by omega
  have h2 : pre.length + off + 2 = pre.length + (off + 2) := by omega
  have h3 : pre.length + off + 3 = pre.length + (off + 3) := by omega
  rw [h1, h2, h3, getByte_append_right pre rest (off + 1),
    getByte_append_right pre rest (off + 2), getByte_append_right pre rest (off + 3)]

theorem getU64le_shift (pre rest : List Nat) (off n : Nat) (hoff : pre.length = n) :
    getU64le (pre ++ rest) (n + off) = getU64le rest off := by
  subst hoff
  unfold getU64le
  rw [getByte_append_right pre rest off]
  have h1 : pre.length + off + 1 = pre.length + (off + 1) := by omega
  have h2 : pre.length + off + 2 = pre.length + (off + 2) := by omega
  have h3 : pre.length + off + 3 = pre.length + (off + 3) := by omega
  have h4 : pre.length + off + 4 = pre.length + (off + 4) := by omega
  have h5 : pre.length + off + 5 = pre.length + (off + 5) := by omega
  have h6 : pre.length + off + 6 = pre.length + (off + 6) := by omega
  have h7 : pre.length + off + 7 = pre.length + (off + 7) := by omega
  rw [h1, h2, h3, h4, h5, h6, h7, getByte_append_right pre rest (off + 1),
    getByte_append_right pre rest (off + 2), getByte_append_right pre rest (off + 3),
    getByte_append_right pre rest (off + 4), getByte_append_right pre rest (off + 5),
    getByte_append_right pre rest (off + 6), getByte_append_right pre rest (off + 7)]

theorem getU32le_front (blob more : List Nat) (h : 4 ≤ blob.length) :
    getU32le (blob ++ more) 0 = getU32le blob 0 := by
  unfold getU32le
  rw [getByte_append_left blob more 0 (by omega), getByte_append_left blob more 1 (by omega),
    getByte_append_left blob more 2 (by omega), getByte_append_left blob more 3 (by omega)]

theorem getU64le_mid (blob more : List Nat) (h : 12 ≤ blob.length) :
    getU64le (blob ++ more) 4 = getU64le blob 4 := by
  unfold getU64le
  rw [getByte_append_left blob more 4 (by omega), getByte_append_left blob more 5 (by omega),
    getByte_append_left blob more 6 (by omega), getByte_append_left blob more 7 (by omega),
    getByte_append_left blob more 8 (by omega), getByte_append_left blob more 9 (by omega),
    getByte_append_left blob more 10 (by omega), getByte_append_left blob more 11 (by omega)]

/-! ## The gap-filling loop, characterised -/

theorem dupLoop_length (pts : Nat) : ∀ (g fuel : Nat) (pf : List Nat) (p : Int),
    (pts : Int) - p - 1 = g → g < fuel →
    (dupLoop fuel pf p pts).1.length = g := by
  intro g
  induction g with
  | zero =>
      intro fuel pf p hg hfuel
      cases fuel with
      | zero => simp [dupLoop]
      | succ f =>
          rw [dupLoop, if_neg (by omega)]
          rfl
  | succ G ih =>
      intro fuel pf p hg hfuel
      cases fuel with
      | zero => omega
      | succ f =>
          rw [dupLoop, if_pos (by omega)]
          dsimp only
          rw [List.length_cons, ih f _ (p + 1) (by omega) (by omega)]

theorem dupLoop_eq (pts : Nat) : ∀ (g fuel : Nat) (pf : List Nat) (p : Int),
    0 ≤ p → (pts : Int) - p - 1 = g → g < fuel → 12 ≤ pf.length →
    dupLoop fuel pf p pts =
      ((List.range' (p.toNat + 1) g).map fun t => setBytesAt pf 4 (u64le t),
        (pts : Int) - 1,
        if g = 0 then pf else setBytesAt pf 4 (u64le (pts - 1))) := by
  intro g
  induction g with
  | zero =>
      intro fuel pf p hp hg hfuel hpf
      have hp' : p = (pts : Int) - 1 := by omega
      cases fuel with
      | zero =>
          rw [dupLoop]
          simp [hp']
      | succ f =>
          rw [dupLoop, if_neg (by omega)]
          simp [hp']
  | succ G ih =>
      intro fuel pf p hp hg hfuel hpf
      cases fuel with
      | zero => omega
      | succ f =>
          rw [dupLoop, if_pos (by omega)]
          dsimp only
          have htn : (p + 1).toNat = p.toNat + 1 := by omega
          rw [htn]
          have hpf' : 12 ≤ (setBytesAt pf 4 (u64le (p.toNat + 1))).length := by
            rw [length_setBytesAt pf 4 _ (by simp [u64le]; omega)]
            exact hpf
          have hih := ih f (setBytesAt pf 4 (u64le (p.toNat + 1))) (p + 1) (by omega) (by omega)
            (by omega) hpf'
          rw [htn] at hih
          rw [hih]
          dsimp only
          have hcomp : ∀ t : Nat, setBytesAt (setBytesAt pf 4 (u64le (p.toNat + 1))) 4 (u64le t) =
              setBytesAt pf 4 (u64le t) := fun t =>
            setBytesAt_setBytesAt pf 4 _ _ (by simp [u64le]) (by simp [u64le]; omega)
          refine congrArg₂ Prod.mk ?_ (congrArg₂ Prod.mk rfl ?_)
          · rw [List.range'_succ, List.map_cons]
            refine congrArg₂ List.cons rfl ?_
            exact List.map_congr_left fun t _ => hcomp t
          · by_cases hG : G = 0
            · subst hG
              rw [if_pos rfl, if_neg (by omega)]
              have h4 : p.toNat + 1 = pts - 1 := by omega
              rw [h4]
            · rw [if_neg hG, if_neg (by omega)]
              exact hcomp (pts - 1)

/-! ## The writer's step, case by case -/

theorem fixStep_skip (file : List Nat) (frames : List (Nat × IvfFrame)) (fr : Nat)
    (st : FixState) (pts : Nat) (hga : mapGet frames pts = none) :
    fixStep file frames fr st pts = .ok st := by
  unfold fixStep
  rw [hga]

theorem fixStep_first (file : List Nat) (frames : List (Nat × IvfFrame)) (fr : Nat)
    (st : FixState) (pts : Nat) (fa : IvfFrame) (hga : mapGet frames pts = some fa)
    (hpf : st.previousFrame = none) :
    fixStep file frames fr st pts =
      .ok ⟨(pts : Int), some (setBytesAt (readBuf file fa.position fa.size) 4 (u64le pts)),
        if st.startPts < 0 then (pts : Int) else st.startPts,
        st.writtenFrames + 1, st.duplicatedFrames,
        st.out ++ [(false, setBytesAt (readBuf file fa.position fa.size) 4 (u64le pts))]⟩ := by
  unfold fixStep
  rw [hga]
  dsimp only
  rw [hpf]
  rfl

theorem fixStep_no_gap (file : List Nat) (frames : List (Nat × IvfFrame)) (fr : Nat)
    (st : FixState) (pts : Nat) (fa : IvfFrame) (pf : List Nat)
    (hga : mapGet frames pts = some fa) (hpf : st.previousFrame = some pf)
    (hgap : ¬ ((pts : Int) - 1 - st.previousPts > 0)) :
    fixStep file frames fr st pts =
      .ok ⟨(pts : Int), some (setBytesAt (readBuf file fa.position fa.size) 4 (u64le pts)),
        if st.startPts < 0 then (pts : Int) else st.startPts,
        st.writtenFrames + 1, st.duplicatedFrames,
        st.out ++ [(false, setBytesAt (readBuf file fa.position fa.size) 4 (u64le pts))]⟩ := by
  unfold fixStep
  rw [hga]
  dsimp only
  rw [hpf]
  dsimp only
  rw [if_neg fun hc => hgap hc.2]
  rfl

theorem fixStep_gap_error (file : List Nat) (frames : List (Nat × IvfFrame)) (fr : Nat)
    (st : FixState) (pts : Nat) (fa : IvfFrame) (pf : List Nat)
    (hga : mapGet frames pts = some fa) (hpf : st.previousFrame = some pf)
    (hprev : st.previousPts ≥ 0)
    (hbig : (pts : Int) - 1 - st.previousPts > (fr : Int) * 60 * 60) :
    fixStep file frames fr st pts = .error "too many frames missing" := by
  have hfr : (0 : Int) ≤ (fr : Int) * 60 * 60 := by positivity
  have hgap : (pts : Int) - 1 - st.previousPts > 0 := by omega
  unfold fixStep
  rw [hga]
  dsimp only
  rw [hpf]
  dsimp only
  rw [if_pos ⟨hprev, hgap⟩, if_pos hbig]
  rfl

theorem fixStep_gap_fill (file : List Nat) (frames : List (Nat × IvfFrame)) (fr : Nat)
    (st : FixState) (pts : Nat) (fa : IvfFrame) (pf : List Nat)
    (hga : mapGet frames pts = some fa) (hpf : st.previousFrame = some pf)
    (hprev : st.previousPts ≥ 0) (hgap : (pts : Int) - 1 - st.previousPts > 0)
    (hok : ¬ ((pts : Int) - 1 - st.previousPts > (fr : Int) * 60 * 60)) :
    fixStep file frames fr st pts =
      .ok ⟨(pts : Int), some (setBytesAt (readBuf file fa.position fa.size) 4 (u64le pts)),
        if st.startPts < 0 then (pts : Int) else st.startPts,
        st.writtenFrames +
          (dupLoop ((pts : Int) - st.previousPts).toNat pf st.previousPts pts).1.length + 1,
        st.duplicatedFrames +
          (dupLoop ((pts : Int) - st.previousPts).toNat pf st.previousPts pts).1.length,
        (st.out ++ ((dupLoop ((pts : Int) - st.previousPts).toNat pf st.previousPts pts).1.map
            fun b => (true, b)) ++
          [(false, setBytesAt (readBuf file fa.position fa.size) 4 (u64le pts))])⟩ := by
  unfold fixStep
  rw [hga]
  dsimp only
  rw [hpf]
  dsimp only
  rw [if_pos ⟨hprev, hgap⟩, if_neg hok]
  rfl

/-! ## The writer-walk invariant -/

theorem chain'_succ_range' : ∀ (n a : Nat),
    List.Chain' (fun x y => y = x + 1) (List.range' a n) := by
  intro n
  induction n with
  | zero => intro a; simp
  | succ m ih =>
      intro a
      cases m with
      | zero => simp
      | succ k =>
          have h := ih (a + 1)
          rw [List.range'_succ, List.range'_succ]
          rw [List.range'_succ] at h
          exact List.chain'_cons.mpr ⟨rfl, h⟩

theorem range'_getLast? (a n : Nat) (h : 1 ≤ n) :
    (List.range' a n).getLast? = some (a + n - 1) := by
  cases n with
  | zero => omega
  | succ m =>
      rw [List.range'_concat, List.getLast?_concat]
      congr 1
      omega

theorem chain'_dup_range' (pf : List Nat) (hpf : 12 ≤ pf.length) :
    ∀ (g start : Nat), start + g ≤ 18446744073709551616 →
    List.Chain' dupRel ((List.range' start g).map fun t => (true, setBytesAt pf 4 (u64le t))) := by
  intro g
  induction g with
  | zero => intro start _; simp
  | succ G ih =>
      intro start hb
      cases G with
      | zero => simp
      | succ K =>
          rw [List.range'_succ, List.map_cons, List.range'_succ, List.map_cons]
          refine List.chain'_cons.mpr ⟨?_, ?_⟩
          · intro _
            have hptx : ptsOf (true, setBytesAt pf 4 (u64le start)) = start := by
              unfold ptsOf
              dsimp only
              rw [getU64le_setBytesAt4 pf start hpf]
              exact Nat.mod_eq_of_lt (by omega)
            dsimp only
            rw [hptx]
            exact (setBytesAt_setBytesAt pf 4 _ _ (by simp [u64le]) (by simp [u64le]; omega)).symm
          · have h2 := ih (start + 1) (by omega)
            rwa [List.range'_succ, List.map_cons] at h2

theorem map_ptsOf_dup (pf : List Nat) (hpf : 12 ≤ pf.length) (start g : Nat)
    (hb : start + g ≤ 18446744073709551616) :
    (((List.range' start g).map fun t => (true, setBytesAt pf 4 (u64le t))).map ptsOf) =
      List.range' start g := by
  rw [List.map_map]
  have he : ∀ t ∈ List.range' start g,
      (ptsOf ∘ fun t => (true, setBytesAt pf 4 (u64le t))) t = id t := by
    intro t ht
    obtain ⟨i, hi, hti⟩ := List.mem_range'.mp ht
    have htlt : t < 18446744073709551616 := by omega
    simp only [Function.comp, ptsOf, id]
    rw [getU64le_setBytesAt4 pf t hpf]
    exact Nat.mod_eq_of_lt htlt
  rw [List.map_congr_left he, List.map_id]

theorem chain'_strengthen {α : Type} (P : α → Prop) (R S : α → α → Prop)
    (h : ∀ x y, P x → R x y → S x y) :
    ∀ l : List α, List.Chain' R l → (∀ x ∈ l, P x) → List.Chain' S l := by
  intro l
  induction l with
  | nil => intro _ _; exact List.chain'_nil
  | cons a t ih =>
      intro hc hp
      cases t with
      | nil => exact List.chain'_singleton a
      | cons b r =>
          rw [List.chain'_cons] at hc ⊢
          exact ⟨h a b (hp a (by simp)) hc.1, ih hc.2 fun x hx => hp x (by simp [hx])⟩

/-- Appending `g` gap-filling duplicates of the last written frame and then
the current frame (embedded pts `pts = a + out.length + g`) preserves the
writer-walk invariant. -/
theorem fixInv_concat (N : Nat) (hN : N ≤ 18446744073709551616)
    (out : List (Bool × List Nat)) (lb : Bool × List Nat) (a g pts : Nat)
    (fv : List Nat) (df wf : Nat)
    (hlast : out.getLast? = some lb)
    (hblob : ∀ b ∈ out, 12 ≤ b.2.length ∧ getU32le b.2 0 = b.2.length - 12)
    (hchain : List.Chain' dupRel out)
    (hseq : out.map ptsOf = List.range' a out.length)
    (hlen1 : 1 ≤ out.length)
    (hpts : pts = a + out.length + g)
    (hbound : pts + 1 ≤ N)
    (hfvlen : 12 ≤ fv.length) (hfvfield : getU32le fv 0 = fv.length - 12)
    (hfvpts : getU64le fv 4 = pts)
    (hwf : wf = out.length + g + 1) :
    FixInv N ⟨(pts : Int), some fv, (a : Int), wf, df,
      (out ++ (List.range' (a + out.length) g).map
        (fun t => (true, setBytesAt lb.2 4 (u64le t)))) ++ [(false, fv)]⟩ := by
  subst hpts
  subst hwf
  have hlbb := hblob lb (List.mem_of_mem_getLast? (Option.mem_def.mpr hlast))
  have hlbpts : ptsOf lb = a + out.length - 1 := by
    have h1 : (out.map ptsOf).getLast? = some (ptsOf lb) := by
      rw [List.getLast?_map, hlast]
      rfl
    rw [hseq, range'_getLast? a _ hlen1] at h1
    exact (Option.some_inj.mp h1).symm
  refine ⟨?_, ?_, ?_, ?_, Or.inr ⟨a, rfl, ?_, ?_, ?_, ?_⟩⟩
  · simp only [FixState.mk.injEq]
    simp
    omega
  · intro b hb
    simp only [List.mem_append, List.mem_singleton, List.mem_map] at hb
    rcases hb with (hb | ⟨t, _, rfl⟩) | hb
    · exact hblob b hb
    · constructor
      · rw [length_setBytesAt _ _ _ (by simp [u64le]; omega)]
        exact hlbb.1
      · rw [length_setBytesAt _ _ _ (by simp [u64le]; omega),
          getU32le_setBytesAt4_front _ _ (by omega)]
        exact hlbb.2
    · rw [hb]
      exact ⟨hfvlen, hfvfield⟩
  · rw [List.chain'_append]
    refine ⟨?_, List.chain'_singleton _, ?_⟩
    · rw [List.chain'_append]
      refine ⟨hchain, chain'_dup_range' lb.2 hlbb.1 g (a + out.length) (by omega), ?_⟩
      intro x hx y hy
      rw [hlast, Option.mem_def, Option.some_inj] at hx
      subst hx
      cases g with
      | zero => simp at hy
      | succ G =>
          rw [List.range'_succ, List.map_cons] at hy
          simp only [List.head?_cons, Option.mem_def, Option.some_inj] at hy
          subst hy
          intro _
          dsimp only
          rw [hlbpts]
          congr 2
          omega
    · intro x _ y hy
      simp only [List.head?_cons, Option.mem_def, Option.some_inj] at hy
      subst hy
      intro hc
      simp at hc
  · rw [List.getLast?_concat]
    rfl
  · simp
    omega
  · have h1 : (List.map ptsOf [(false, fv)]) = [a + out.length + g] := by
      simp [ptsOf, hfvpts]
    rw [List.map_append, List.map_append, hseq,
      map_ptsOf_dup lb.2 hlbb.1 (a + out.length) g (by omega), h1, List.range'_append_1]
    have h2 : a + out.length + g = a + 1 * (g + out.length) := by omega
    rw [h2, ← List.range'_concat]
    congr 1
    simp only [List.length_append, List.length_map, List.length_range', List.length_singleton]
    omega
  · simp only [List.length_append, List.length_map, List.length_range', List.length_singleton]
    push_cast
    omega
  · simp only [List.length_append, List.length_map, List.length_range', List.length_singleton]
    omega

/-- One writer step preserves the invariant, and moves `previousPts` at
most up to the processed timestamp. -/
theorem fixStep_inv (file : List Nat) (frames : List (Nat × IvfFrame)) (fr N : Nat)
    (hN : N ≤ 18446744073709551616) (hF : FramesOk file frames)
    (st : FixState) (pts : Nat) (st' : FixState)
    (hInv : FixInv N st) (hpts : st.previousPts < (pts : Int)) (hbound : pts + 1 ≤ N)
    (hok : fixStep file frames fr st pts = .ok st') :
    FixInv N st' ∧ st.previousPts ≤ st'.previousPts ∧ st'.previousPts ≤ (pts : Int) := by
  obtain ⟨hcount, hblob, hchain, hprevF, hcase⟩ := hInv
  cases hga : mapGet frames pts with
  | none =>
      rw [fixStep_skip file frames fr st pts hga] at hok
      cases hok
      exact ⟨⟨hcount, hblob, hchain, hprevF, hcase⟩, le_refl _, le_of_lt hpts⟩
  | some fa =>
      have hfa := hF (pts, fa) (mapGet_eq_some_mem frames pts fa hga)
      dsimp only at hfa
      have hraw : (readBuf file fa.position fa.size).length = fa.size :=
        length_readBuf _ _ _
      have hfvlen : (setBytesAt (readBuf file fa.position fa.size) 4 (u64le pts)).length =
          fa.size := by
        rw [length_setBytesAt _ _ _ (by rw [hraw]; simp [u64le]; omega)]
        exact hraw
      have hfvge : 12 ≤ (setBytesAt (readBuf file fa.position fa.size) 4 (u64le pts)).length := by
        rw [hfvlen]
        exact hfa.1
      have hfvpts : getU64le (setBytesAt (readBuf file fa.position fa.size) 4 (u64le pts)) 4 =
          pts := by
        rw [getU64le_setBytesAt4 _ pts (by rw [hraw]; exact hfa.1)]
        exact Nat.mod_eq_of_lt (by omega)
      have hfvfield : getU32le (setBytesAt (readBuf file fa.position fa.size) 4 (u64le pts)) 0 =
          (setBytesAt (readBuf file fa.position fa.size) 4 (u64le pts)).length - 12 := by
        rw [getU32le_setBytesAt4_front _ _ (by rw [hraw]; omega), hfvlen]
        exact hfa.2
      rcases hcase with ⟨hout, hprevPts, hstart⟩ | ⟨a, hstart, hlen1, hseq, hprevPts, hbnd⟩
      · -- nothing written yet: first frame
        have hpfn : st.previousFrame = none := by
          rw [hprevF, hout]
          rfl
        rw [fixStep_first file frames fr st pts fa hga hpfn] at hok
        cases hok
        refine ⟨⟨?_, ?_, ?_, ?_, Or.inr ⟨pts, ?_, ?_, ?_, ?_, ?_⟩⟩, ?_, ?_⟩
        · simp [hcount, hout]
        · intro b hb
          rw [hout] at hb
          simp only [List.nil_append, List.mem_singleton] at hb
          rw [hb]
          exact ⟨hfvge, hfvfield⟩
        · rw [hout]
          exact List.chain'_singleton _
        · rw [hout]
          rfl
        · rw [hstart]
          simp
        · simp
        · rw [hout]
          simp only [List.nil_append, List.map_cons, List.map_nil, List.length_cons,
            List.length_nil]
          rw [List.range'_succ]
          simp [ptsOf, hfvpts]
        · rw [hout]
          simp
        · rw [hout]
          simpa using hbound
        · dsimp only
          rw [hprevPts]
          omega
        · dsimp only
          omega
      · -- at least one frame written
        have houtne : st.out ≠ [] := by
          intro hc
          rw [hc] at hlen1
          simp at hlen1
        have hprev0 : st.previousPts ≥ 0 := by
          rw [hprevPts]
          have h1 : 1 ≤ st.out.length := hlen1
          omega
        cases hlast : st.out.getLast? with
        | none =>
            rw [List.getLast?_eq_none_iff] at hlast
            exact absurd hlast houtne
        | some lb =>
            have hpfs : st.previousFrame = some lb.2 := by
              rw [hprevF, hlast]
              rfl
            have hanle : a + st.out.length ≤ pts := by
              rw [hprevPts] at hpts
              omega
            have hstartge : ¬ st.startPts < 0 := by
              rw [hstart]
              omega
            by_cases hgap : (pts : Int) - 1 - st.previousPts > 0
            · by_cases hbig : (pts : Int) - 1 - st.previousPts > (fr : Int) * 60 * 60
              · rw [fixStep_gap_error file frames fr st pts fa lb.2 hga hpfs hprev0 hbig] at hok
                simp at hok
              · rw [fixStep_gap_fill file frames fr st pts fa lb.2 hga hpfs hprev0 hgap hbig]
                  at hok
                have hgnat : (pts : Int) - st.previousPts - 1 = ((pts - (a + st.out.length) : Nat) : Int) := by
                  rw [hprevPts]
                  omega
                have hdl := dupLoop_eq pts (pts - (a + st.out.length))
                  (((pts : Int) - st.previousPts).toNat) lb.2 st.previousPts hprev0 hgnat
                  (by rw [hprevPts]; omega) (hblob lb (List.mem_of_mem_getLast?
                    (Option.mem_def.mpr hlast))).1
                have hstart' : st.previousPts.toNat + 1 = a + st.out.length := by
                  rw [hprevPts]
                  omega
                rw [hstart'] at hdl
                rw [hdl] at hok
                cases hok
                dsimp only
                rw [if_neg hstartge, hstart]
                refine ⟨?_, le_of_lt hpts, le_refl _⟩
                have hcc := fixInv_concat N hN st.out lb a (pts - (a + st.out.length)) pts
                  (setBytesAt (readBuf file fa.position fa.size) 4 (u64le pts))
                  (st.duplicatedFrames +
                    ((List.range' (a + st.out.length) (pts - (a + st.out.length))).map
                      fun t => setBytesAt lb.2 4 (u64le t)).length)
                  (st.writtenFrames +
                    ((List.range' (a + st.out.length) (pts - (a + st.out.length))).map
                      fun t => setBytesAt lb.2 4 (u64le t)).length + 1)
                  hlast hblob hchain hseq hlen1 (by omega) hbound hfvge hfvfield hfvpts
                  (by simp [hcount])
                rw [List.map_map]
                exact hcc
            · rw [fixStep_no_gap file frames fr st pts fa lb.2 hga hpfs hgap] at hok
              cases hok
              dsimp only
              rw [if_neg hstartge, hstart]
              have hptseq : pts = a + st.out.length := by
                rw [hprevPts] at hgap
                omega
              constructor
              · have hcc := fixInv_concat N hN st.out lb a 0 pts
                  (setBytesAt (readBuf file fa.position fa.size) 4 (u64le pts))
                  st.duplicatedFrames (st.writtenFrames + 1) hlast hblob hchain hseq hlen1
                  (by omega) hbound hfvge hfvfield hfvpts (by rw [hcount])
                simpa using hcc
              · exact ⟨le_of_lt hpts, le_refl _⟩

/-- The writer's walk preserves the invariant across a sorted suffix of
timestamps all beyond the last written one. -/
theorem fixLoop_inv (file : List Nat) (frames : List (Nat × IvfFrame)) (fr N : Nat)
    (hN : N ≤ 18446744073709551616) (hF : FramesOk file frames) :
    ∀ (l : List Nat) (st st' : FixState),
    (∀ p ∈ l, st.previousPts < (p : Int) ∧ p + 1 ≤ N) →
    l.Sorted (· < ·) →
    FixInv N st →
    fixLoop file frames fr l st = .ok st' →
    FixInv N st' := by
  intro l
  induction l with
  | nil =>
      intro st st' _ _ hInv hok
      cases hok
      exact hInv
  | cons pts rest ih =>
      intro st st' hall hsort hInv hok
      rw [fixLoop] at hok
      cases hstep : fixStep file frames fr st pts with
      | error e =>
          rw [hstep] at hok
          simp [Except.bind] at hok
      | ok st1 =>
          rw [hstep] at hok
          simp only [Except.bind] at hok
          obtain ⟨hInv1, _, hle⟩ := fixStep_inv file frames fr N hN hF st pts st1 hInv
            (hall pts (by simp)).1 (hall pts (by simp)).2 hstep
          have hsort' := (List.sorted_cons.mp hsort).2
          have hhead := (List.sorted_cons.mp hsort).1
          refine ih st1 st' ?_ hsort' hInv1 hok
          intro p hp
          have hlt : pts < p := hhead p hp
          refine ⟨?_, (hall p (by simp [hp])).2⟩
          have : (pts : Int) < (p : Int) := by exact_mod_cast hlt
          omega

/-- Claim C1: when the Frame Repair Writer completes without error, the
embedded 8-byte timestamps of the frames written to the output container
are contiguous — every frame's timestamp is its predecessor's plus one. -/
theorem claim_C1_repaired_pts_contiguous (file : List Nat)
    (frames : List (Nat × IvfFrame)) (ptsIndex : List Nat) (frameRate : Nat)
    (res : FixOutput) (hF : FramesOk file frames) (hsort : ptsIndex.Sorted (· < ·))
    (hpts : ∀ p ∈ ptsIndex, p + 1 ≤ 18446744073709551616)
    (hrun : fixIvfFrames file frames ptsIndex frameRate = .ok res) :
    List.Chain' (fun x y => y = x + 1) (res.outFrames.map ptsOf) := by
  unfold fixIvfFrames at hrun
  cases hloop : fixLoop file frames frameRate ptsIndex ⟨-1, none, -1, 0, 0, []⟩ with
  | error e =>
      rw [hloop] at hrun
      simp [Except.map] at hrun
  | ok st' =>
      rw [hloop] at hrun
      simp only [Except.map, Except.ok.injEq] at hrun
      have hres : res.outFrames = st'.out := by
        rw [← hrun]
      have hInit : FixInv 18446744073709551616 ⟨-1, none, -1, 0, 0, []⟩ := by
        refine ⟨rfl, ?_, List.chain'_nil, rfl, Or.inl ⟨rfl, rfl, rfl⟩⟩
        intro b hb
        simp at hb
      have hfin := fixLoop_inv file frames frameRate 18446744073709551616 le_rfl hF ptsIndex
        _ st' (fun p hp => ⟨by dsimp only; omega, hpts p hp⟩) hsort hInit hloop
      obtain ⟨_, _, _, _, hcase⟩ := hfin
      rw [hres]
      rcases hcase with ⟨hout, _, _⟩ | ⟨a, _, _, hseq, _, _⟩
      · rw [hout]
        exact List.chain'_nil
      · rw [hseq]
        exact chain'_succ_range' _ _

/-- Witness for C1: a two-frame source with a gap at timestamp 1. -/
theorem claim_C1_repaired_pts_contiguous_witness :
    FramesOk exGapFile exGapFrames ∧
    ([0, 2] : List Nat).Sorted (· < ·) ∧
    (∀ p ∈ ([0, 2] : List Nat), p + 1 ≤ 18446744073709551616) ∧
    fixIvfFrames exGapFile exGapFrames [0, 2] 30 = .ok exGapOut ∧
    List.Chain' (fun x y => y = x + 1) (exGapOut.outFrames.map ptsOf) :=
  ⟨by decide, by decide, by decide, by rfl,
    claim_C1_repaired_pts_contiguous exGapFile exGapFrames [0, 2] 30 exGapOut
      (by decide) (by decide) (by decide) (by rfl)⟩

/-- Claim C7: every gap-filling duplicate the writer emits is byte-for-byte
the previously written frame with only the embedded 8-byte timestamp field
at offset 4 patched, to the predecessor's timestamp plus one. -/
theorem claim_C7_duplicates_byte_identical (file : List Nat)
    (frames : List (Nat × IvfFrame)) (ptsIndex : List Nat) (frameRate : Nat)
    (res : FixOutput) (hF : FramesOk file frames) (hsort : ptsIndex.Sorted (· < ·))
    (hpts : ∀ p ∈ ptsIndex, p + 1 ≤ 18446744073709551616)
    (hrun : fixIvfFrames file frames ptsIndex frameRate = .ok res) :
    List.Chain' (fun x y => y.1 = true →
      y.2 = setBytesAt x.2 4 (u64le (ptsOf x + 1)) ∧ y.2.length = x.2.length ∧
      ∀ j, j < 4 ∨ 12 ≤ j → getByte y.2 j = getByte x.2 j) res.outFrames := by
  unfold fixIvfFrames at hrun
  cases hloop : fixLoop file frames frameRate ptsIndex ⟨-1, none, -1, 0, 0, []⟩ with
  | error e =>
      rw [hloop] at hrun
      simp [Except.map] at hrun
  | ok st' =>
      rw [hloop] at hrun
      simp only [Except.map, Except.ok.injEq] at hrun
      have hres : res.outFrames = st'.out := by
        rw [← hrun]
      have hInit : FixInv 18446744073709551616 ⟨-1, none, -1, 0, 0, []⟩ := by
        refine ⟨rfl, ?_, List.chain'_nil, rfl, Or.inl ⟨rfl, rfl, rfl⟩⟩
        intro b hb
        simp at hb
      have hfin := fixLoop_inv file frames frameRate 18446744073709551616 le_rfl hF ptsIndex
        _ st' (fun p hp => ⟨by dsimp only; omega, hpts p hp⟩) hsort hInit hloop
      obtain ⟨_, hblob, hchain, _, _⟩ := hfin
      rw [hres]
      refine chain'_strengthen (fun x => 12 ≤ x.2.length) dupRel _ ?_ st'.out hchain
        (fun x hx => (hblob x hx).1)
      intro x y hP hR hy
      have hEq := hR hy
      have hlen8 : 4 + (u64le (ptsOf x + 1)).length ≤ x.2.length := by
        simp [u64le]
        omega
      refine ⟨hEq, ?_, ?_⟩
      · rw [hEq, length_setBytesAt _ _ _ hlen8]
      · intro j hj
        rw [hEq]
        rcases hj with hj | hj
        · exact getByte_setBytesAt_before _ _ _ j hj (by omega)
        · exact getByte_setBytesAt_after _ _ _ j (by simp [u64le]; omega) hlen8

/-- Witness for C7: the same two-frame run with one duplicate. -/
theorem claim_C7_duplicates_byte_identical_witness :
    FramesOk exGapFile exGapFrames ∧
    ([0, 2] : List Nat).Sorted (· < ·) ∧
    (∀ p ∈ ([0, 2] : List Nat), p + 1 ≤ 18446744073709551616) ∧
    fixIvfFrames exGapFile exGapFrames [0, 2] 30 = .ok exGapOut ∧
    List.Chain' (fun x y => y.1 = true →
      y.2 = setBytesAt x.2 4 (u64le (ptsOf x + 1)) ∧ y.2.length = x.2.length ∧
      ∀ j, j < 4 ∨ 12 ≤ j → getByte y.2 j = getByte x.2 j) exGapOut.outFrames :=
  ⟨by decide, by decide, by decide, by rfl,
    claim_C7_duplicates_byte_identical exGapFile exGapFrames [0, 2] 30 exGapOut
      (by decide) (by decide) (by decide) (by rfl)⟩

/-- Claim C2: with two consecutive recovered timestamps `a < b`, a gap of
exactly `60 * 60 * frameRate + 1` missing frames (`b - 1 - a`) raises the
gap error, while a gap one smaller is filled by exactly that many
duplicates and does not raise. -/
theorem claim_C2_gap_bound (file : List Nat) (frames : List (Nat × IvfFrame))
    (a b fr : Nat) (fa fb : IvfFrame)
    (hga : mapGet frames a = some fa) (hgb : mapGet frames b = some fb) :
    (b = a + (60 * 60 * fr + 1) + 1 →
      fixIvfFrames file frames [a, b] fr = .error "too many frames missing") ∧
    (b = a + 60 * 60 * fr + 1 →
      ∃ res, fixIvfFrames file frames [a, b] fr = .ok res ∧
        res.duplicatedFrames = 60 * 60 * fr ∧
        res.writtenFrames = 2 + 60 * 60 * fr) := by
  have hstep1 := fixStep_first file frames fr ⟨-1, none, -1, 0, 0, []⟩ a fa hga rfl
  rw [if_pos (by norm_num)] at hstep1
  constructor
  · intro hb
    unfold fixIvfFrames
    rw [fixLoop, hstep1]
    simp only [Except.bind]
    rw [fixLoop, fixStep_gap_error file frames fr _ b fb _ hgb rfl
      (by dsimp only; omega)
      (by dsimp only; subst hb; push_cast; omega)]
    rfl
  · intro hb
    unfold fixIvfFrames
    rw [fixLoop, hstep1]
    simp only [Except.bind]
    rw [fixLoop]
    by_cases h0 : 60 * 60 * fr = 0
    · rw [fixStep_no_gap file frames fr _ b fb _ hgb rfl
        (by dsimp only; subst hb; push_cast; omega)]
      simp only [Except.bind]
      rw [fixLoop]
      refine ⟨_, rfl, ?_, ?_⟩
      · dsimp only
        omega
      · dsimp only
        omega
    · rw [fixStep_gap_fill file frames fr _ b fb _ hgb rfl (by dsimp only; omega)
        (by dsimp only; subst hb; push_cast; omega)
        (by dsimp only; subst hb; push_cast; omega)]
      simp only [Except.bind]
      rw [fixLoop]
      refine ⟨_, rfl, ?_, ?_⟩
      · dsimp only
        rw [dupLoop_length b (60 * 60 * fr) _ _ _
          (by subst hb; push_cast; omega) (by subst hb; omega)]
        omega
      · dsimp only
        rw [dupLoop_length b (60 * 60 * fr) _ _ _
          (by subst hb; push_cast; omega) (by subst hb; omega)]
        omega

/-- Witness for C2 at `frameRate = 1` with recovered timestamps 0 and 3601
(a gap of exactly one hour of frames, which is filled, not raised). -/
theorem claim_C2_gap_bound_witness :
    mapGet [(0, (⟨0, 32, 12⟩ : IvfFrame)), (3601, ⟨1, 44, 12⟩)] 0 = some ⟨0, 32, 12⟩ ∧
    mapGet [(0, (⟨0, 32, 12⟩ : IvfFrame)), (3601, ⟨1, 44, 12⟩)] 3601 = some ⟨1, 44, 12⟩ ∧
    ((3601 = 0 + (60 * 60 * 1 + 1) + 1 →
        fixIvfFrames exGapFile [(0, ⟨0, 32, 12⟩), (3601, ⟨1, 44, 12⟩)] [0, 3601] 1 =
          .error "too many frames missing") ∧
      (3601 = 0 + 60 * 60 * 1 + 1 →
        ∃ res, fixIvfFrames exGapFile [(0, ⟨0, 32, 12⟩), (3601, ⟨1, 44, 12⟩)] [0, 3601] 1 =
            .ok res ∧
          res.duplicatedFrames = 60 * 60 * 1 ∧ res.writtenFrames = 2 + 60 * 60 * 1)) :=
  ⟨by decide, by decide,
    claim_C2_gap_bound exGapFile [(0, ⟨0, 32, 12⟩), (3601, ⟨1, 44, 12⟩)] 0 3601 1
      ⟨0, 32, 12⟩ ⟨1, 44, 12⟩ (by decide) (by decide)⟩

/-! ## Sorted, duplicate-free timestamp indices (claim C8) -/

theorem mapHas_eq_mem {α : Type} (m : List (Nat × α)) (k : Nat) :
    mapHas m k = true ↔ k ∈ m.map Prod.fst := by
  induction m with
  | nil => simp [mapHas]
  | cons p rest ih =>
      rcases p with ⟨k', v'⟩
      by_cases hk : k' = k
      · simp [mapHas, hk]
      · simp [mapHas, hk, ih, Ne.symm hk]

theorem parseLoop_keys_nodup (file : List Nat) :
    ∀ (fuel position index : Nat) (acc : List (Nat × IvfFrame)),
    (acc.map Prod.fst).Nodup →
    ((parseLoop file fuel position index acc).map Prod.fst).Nodup := by
  intro fuel
  induction fuel with
  | zero => intro _ _ acc h; exact h
  | succ f ih =>
      intro position index acc h
      rw [parseLoop]
      by_cases hshort : file.length < position + 12
      · rw [if_pos hshort]
        exact h
      · rw [if_neg hshort]
        dsimp only
        by_cases hhas : mapHas acc (getU64le file (position + 4))
        · rw [if_pos hhas]
          exact ih _ _ acc h
        · rw [if_neg hhas]
          apply ih
          rw [List.map_append]
          simp only [List.map_cons, List.map_nil]
          rw [List.nodup_append]
          refine ⟨h, by simp, ?_⟩
          intro x hx
          simp only [List.mem_singleton]
          intro hc
          rw [hc] at hx
          exact hhas ((mapHas_eq_mem acc _).mpr hx)

theorem mapSet_keys_nodup {α : Type} (m : List (Nat × α)) (k : Nat) (v : α)
    (h : (m.map Prod.fst).Nodup) : ((mapSet m k v).map Prod.fst).Nodup := by
  induction m with
  | nil => simp [mapSet]
  | cons p rest ih =>
      rcases p with ⟨k', v'⟩
      simp only [List.map_cons, List.nodup_cons] at h
      by_cases hk : k' = k
      · subst hk
        rw [show mapSet ((k', v') :: rest) k' v = (k', v) :: rest from by simp [mapSet]]
        simp only [List.map_cons, List.nodup_cons]
        exact h
      · simp only [mapSet, if_neg hk, List.map_cons, List.nodup_cons]
        refine ⟨?_, ih h.2⟩
        intro hc
        rw [mem_keys_mapSet] at hc
        rcases hc with hc | hc
        · exact hk hc
        · exact h.1 hc

theorem rekeyGo_keys_nodup (rec : List (Nat × Nat)) :
    ∀ (fs acc : List (Nat × IvfFrame)),
    (acc.map Prod.fst).Nodup → ((rekeyGo rec fs acc).map Prod.fst).Nodup := by
  intro fs
  induction fs with
  | nil => intro acc h; exact h
  | cons p rest ih =>
      rcases p with ⟨pts, frame⟩
      intro acc h
      rw [rekeyGo]
      cases hg : mapGet rec pts with
      | none => exact ih acc h
      | some r =>
          dsimp only
          by_cases hr : r = 0
          · rw [if_neg (by simp [hr])]
            exact ih acc h
          · rw [if_pos hr]
            exact ih _ (mapSet_keys_nodup acc r frame h)

theorem sortKeys_sorted_lt {α : Type} (m : List (Nat × α))
    (h : (m.map Prod.fst).Nodup) : (sortKeys m).Sorted (· < ·) := by
  have hs : (sortKeys m).Sorted (· ≤ ·) := List.sorted_insertionSort _ _
  have hperm : List.Perm (sortKeys m) (m.map Prod.fst) := List.perm_insertionSort _ _
  exact hs.lt_of_le (hperm.nodup_iff.mpr h)

/-- Claim C8: both after a plain parse and after the recovery engine
replaces the catalogue, the returned `ptsIndex` is strictly ascending and
is a permutation of the catalogue's key set (i.e. it is exactly the sorted
key set). -/
theorem claim_C8_ptsIndex_sorted_keys (file : List Nat) (ocr : List (Nat × Nat))
    (info rinfo : IvfInfo)
    (h : parseIvfPlain file = some info)
    (h' : parseIvfRecognized file ocr = some rinfo) :
    info.ptsIndex.Sorted (· < ·) ∧ info.ptsIndex.Perm (info.frames.map Prod.fst) ∧
    rinfo.ptsIndex.Sorted (· < ·) ∧ rinfo.ptsIndex.Perm (rinfo.frames.map Prod.fst) := by
  unfold parseIvfPlain at h
  unfold parseIvfRecognized at h'
  by_cases h32 : file.length < 32
  · rw [if_pos h32] at h
    simp at h
  · rw [if_neg h32] at h h'
    simp only [Option.some_inj] at h h'
    have hnodup : ((parseLoop file file.length 32 0 []).map Prod.fst).Nodup :=
      parseLoop_keys_nodup file file.length 32 0 [] (by simp)
    have hnodup' : ((rekeyFrames (parseLoop file file.length 32 0 [])
        (reconcile ocr)).map Prod.fst).Nodup :=
      rekeyGo_keys_nodup (reconcile ocr) _ [] (by simp)
    rw [← h, ← h']
    exact ⟨sortKeys_sorted_lt _ hnodup, List.perm_insertionSort _ _,
      sortKeys_sorted_lt _ hnodup', List.perm_insertionSort _ _⟩

/-- Witness for C8: a one-frame file, parsed plainly and with an empty
recognition outcome. -/
theorem claim_C8_ptsIndex_sorted_keys_witness :
    parseIvfPlain (List.replicate 32 0 ++ u32le 1 ++ u64le 5 ++ [7]) =
      some ⟨0, 0, 0, 0, [(5, ⟨0, 32, 13⟩)], [5]⟩ ∧
    parseIvfRecognized (List.replicate 32 0 ++ u32le 1 ++ u64le 5 ++ [7]) [] =
      some ⟨0, 0, 0, 0, [], []⟩ ∧
    (([5] : List Nat).Sorted (· < ·) ∧
      ([5] : List Nat).Perm ([(5, (⟨0, 32, 13⟩ : IvfFrame))].map Prod.fst) ∧
      ([] : List Nat).Sorted (· < ·) ∧
      ([] : List Nat).Perm (([] : List (Nat × IvfFrame)).map Prod.fst)) :=
  ⟨by decide, by decide,
    claim_C8_ptsIndex_sorted_keys (List.replicate 32 0 ++ u32le 1 ++ u64le 5 ++ [7]) []
      ⟨0, 0, 0, 0, [(5, ⟨0, 32, 13⟩)], [5]⟩ ⟨0, 0, 0, 0, [], []⟩ (by decide) (by decide)⟩

/-! ## Re-parsing a written container (claim C6) -/

theorem getU32le_shift0 (pre rest : List Nat) (n : Nat) (hoff : pre.length = n) :
    getU32le (pre ++ rest) n = getU32le rest 0 := by
  have h := getU32le_shift pre rest 0 n hoff
  simpa using h

theorem getU32le_append_left (pre rest : List Nat) (off : Nat)
    (h : off + 4 ≤ pre.length) :
    getU32le (pre ++ rest) off = getU32le pre off := by
  unfold getU32le
  rw [getByte_append_left pre rest off (by omega),
    getByte_append_left pre rest (off + 1) (by omega),
    getByte_append_left pre rest (off + 2) (by omega),
    getByte_append_left pre rest (off + 3) (by omega)]

theorem twelve_mul_le_sum_lengths :
    ∀ (L : List (List Nat)), (∀ b ∈ L, 12 ≤ b.length) →
    12 * L.length ≤ (L.map List.length).sum := by
  intro L
  induction L with
  | nil => intro _; simp
  | cons b rest ih =>
      intro h
      have hb := h b (by simp)
      have hr := ih fun x hx => h x (by simp [hx])
      simp only [List.map_cons, List.sum_cons, List.length_cons]
      omega

/-- Scanning a file laid out as a prefix followed by well-formed frame
blobs (length = size field + 12) catalogues exactly one frame per blob,
keyed by its embedded timestamp, provided those timestamps are fresh and
duplicate-free. -/
theorem parseLoop_blobs :
    ∀ (blobs : List (List Nat)) (pre : List Nat) (fuel idx : Nat)
      (acc : List (Nat × IvfFrame)),
    (∀ b ∈ blobs, 12 ≤ b.length ∧ getU32le b 0 = b.length - 12) →
    blobs.length < fuel →
    (acc.map Prod.fst ++ blobs.map fun b => getU64le b 4).Nodup →
    (parseLoop (pre ++ blobs.flatten) fuel pre.length idx acc).map Prod.fst =
      acc.map Prod.fst ++ blobs.map fun b => getU64le b 4 := by
  intro blobs
  induction blobs with
  | nil =>
      intro pre fuel idx acc _ hfuel _
      cases fuel with
      | zero => omega
      | succ f =>
          rw [parseLoop, if_pos (by simp)]
          simp
  | cons b rest ih =>
      intro pre fuel idx acc hb hfuel hnodup
      have hbb := hb b (by simp)
      cases fuel with
      | zero => omega
      | succ f =>
          rw [List.flatten_cons, ← List.append_assoc]
          rw [parseLoop, if_neg (by
            simp only [List.length_append]
            omega)]
          dsimp only
          have hsize : getU32le ((pre ++ b) ++ rest.flatten) pre.length = b.length - 12 := by
            rw [List.append_assoc, getU32le_shift0 pre _ pre.length rfl,
              getU32le_front b _ (by omega)]
            exact hbb.2
          have hpts : getU64le ((pre ++ b) ++ rest.flatten) (pre.length + 4) =
              getU64le b 4 := by
            rw [List.append_assoc, getU64le_shift pre _ 4 pre.length rfl,
              getU64le_mid b _ hbb.1]
          rw [hsize, hpts]
          have hfresh : getU64le b 4 ∉ acc.map Prod.fst := by
            intro hc
            rw [List.map_cons] at hnodup
            have hdisj := List.disjoint_of_nodup_append hnodup
            exact hdisj hc (by simp)
          rw [if_neg (by
            intro hc
            exact hfresh ((mapHas_eq_mem acc _).mp hc))]
          have hposeq : pre.length + (b.length - 12) + 12 = (pre ++ b).length := by
            simp only [List.length_append]
            omega
          rw [hposeq]
          have hih := ih (pre ++ b) f (idx + 1)
            (acc ++ [(getU64le b 4, ⟨idx, pre.length, b.length - 12 + 12⟩)])
            (fun x hx => hb x (by simp [hx])) (by simpa using hfuel)
            (by
              simp only [List.map_append, List.map_cons, List.map_nil, List.map_cons] at hnodup ⊢
              rw [List.append_assoc]
              simpa using hnodup)
          rw [hih]
          simp

/-- Claim C6: re-parsing the container the Frame Repair Writer produced
yields a catalogue whose frame count equals the value stored in the 4-byte
little-endian frame-count field at header offset 24, which is the total
number of frames written (originals plus duplicates). -/
theorem claim_C6_roundtrip_frame_count (file : List Nat)
    (frames : List (Nat × IvfFrame)) (ptsIndex : List Nat) (frameRate : Nat)
    (res : FixOutput) (hF : FramesOk file frames) (hsort : ptsIndex.Sorted (· < ·))
    (hpts : ∀ p ∈ ptsIndex, p + 2 ≤ 4294967296)
    (hrun : fixIvfFrames file frames ptsIndex frameRate = .ok res) :
    ∃ info, parseIvfPlain res.outBytes = some info ∧
      info.frames.length = res.writtenFrames ∧
      getU32le res.outBytes 24 = res.writtenFrames := by
  unfold fixIvfFrames at hrun
  cases hloop : fixLoop file frames frameRate ptsIndex ⟨-1, none, -1, 0, 0, []⟩ with
  | error e =>
      rw [hloop] at hrun
      simp [Except.map] at hrun
  | ok st' =>
      rw [hloop] at hrun
      simp only [Except.map, Except.ok.injEq] at hrun
      have hInit : FixInv 4294967295 ⟨-1, none, -1, 0, 0, []⟩ := by
        refine ⟨rfl, ?_, List.chain'_nil, rfl, Or.inl ⟨rfl, rfl, rfl⟩⟩
        intro b hb
        simp at hb
      have hfin := fixLoop_inv file frames frameRate 4294967295 (by omega) hF ptsIndex
        _ st' (fun p hp => ⟨by dsimp only; omega, by have := hpts p hp; omega⟩)
        hsort hInit hloop
      obtain ⟨hcount, hblob, _, _, hcase⟩ := hfin
      have hwflt : st'.writtenFrames < 4294967296 := by
        rcases hcase with ⟨hout, _, _⟩ | ⟨a, _, _, _, _, hbnd⟩
        · rw [hcount, hout]
          simp
        · rw [hcount]
          omega
      have hbytes : res.outBytes =
          setBytesAt (readBuf file 0 32) 24 (u32le st'.writtenFrames) ++
            (st'.out.map Prod.snd).flatten := by
        rw [← hrun]
      have hwf : res.writtenFrames = st'.writtenFrames := by
        rw [← hrun]
      have hhdr : (setBytesAt (readBuf file 0 32) 24 (u32le st'.writtenFrames)).length = 32 := by
        rw [length_setBytesAt _ _ _ (by simp [u32le, length_readBuf])]
        exact length_readBuf _ _ _
      have hfield : getU32le res.outBytes 24 = st'.writtenFrames := by
        rw [hbytes, getU32le_append_left _ _ 24 (by rw [hhdr]; omega),
          getU32le_setBytesAt24 _ _ (by rw [length_readBuf]; omega)]
        exact Nat.mod_eq_of_lt hwflt
      have hblobs' : ∀ bb ∈ st'.out.map Prod.snd, 12 ≤ bb.length ∧
          getU32le bb 0 = bb.length - 12 := by
        intro bb hbb
        obtain ⟨wb, hwb, rfl⟩ := List.mem_map.mp hbb
        exact hblob wb hwb
      have hptsmap : ((st'.out.map Prod.snd).map fun bb => getU64le bb 4) =
          st'.out.map ptsOf := by
        rw [List.map_map]
        rfl
      have hnodup : (([] : List (Nat × IvfFrame)).map Prod.fst ++
          (st'.out.map Prod.snd).map fun bb => getU64le bb 4).Nodup := by
        rw [List.map_nil, List.nil_append, hptsmap]
        rcases hcase with ⟨hout, _, _⟩ | ⟨a, _, _, hseq, _, _⟩
        · rw [hout]
          simp
        · rw [hseq]
          exact List.nodup_range' _ _
      have hfuel : (st'.out.map Prod.snd).length < res.outBytes.length := by
        rw [hbytes]
        simp only [List.length_append, hhdr, List.length_flatten]
        have h12 := twelve_mul_le_sum_lengths (st'.out.map Prod.snd)
          fun bb hbb => (hblobs' bb hbb).1
        simp only [List.length_map] at h12 ⊢
        omega
      have hparse := parseLoop_blobs (st'.out.map Prod.snd)
        (setBytesAt (readBuf file 0 32) 24 (u32le st'.writtenFrames))
        res.outBytes.length 0 [] hblobs' hfuel hnodup
      rw [hhdr] at hparse
      have hlen32 : ¬ res.outBytes.length < 32 := by
        rw [hbytes]
        simp only [List.length_append, hhdr]
        omega
      refine ⟨⟨getU16le res.outBytes 12, getU16le res.outBytes 14, getU32le res.outBytes 16,
        getU32le res.outBytes 20, parseLoop res.outBytes res.outBytes.length 32 0 [],
        sortKeys (parseLoop res.outBytes res.outBytes.length 32 0 [])⟩, ?_, ?_, ?_⟩
      · unfold parseIvfPlain
        rw [if_neg hlen32]
      · dsimp only
        have hcnt : (parseLoop res.outBytes res.outBytes.length 32 0 []).length =
            st'.out.length := by
          have h1 := congrArg List.length hparse
          rw [← hbytes] at h1
          simp only [List.length_map, List.length_append, List.length_nil] at h1
          simpa using h1
        rw [hcnt, hwf, hcount]
      · rw [hfield, hwf]

/-- Witness for C6 on the two-frame gap example. -/
theorem claim_C6_roundtrip_frame_count_witness :
    FramesOk exGapFile exGapFrames ∧
    ([0, 2] : List Nat).Sorted (· < ·) ∧
    (∀ p ∈ ([0, 2] : List Nat), p + 2 ≤ 4294967296) ∧
    fixIvfFrames exGapFile exGapFrames [0, 2] 30 = .ok exGapOut ∧
    ∃ info, parseIvfPlain exGapOut.outBytes = some info ∧
      info.frames.length = exGapOut.writtenFrames ∧
      getU32le exGapOut.outBytes 24 = exGapOut.writtenFrames :=
  ⟨by decide, by decide, by decide, by rfl,
    claim_C6_roundtrip_frame_count exGapFile exGapFrames [0, 2] 30 exGapOut
      (by decide) (by decide) (by decide) (by rfl)⟩

end Webrtcperf
